import Mathlib

/-!
Shallow embedding of the vweb3.js library core: the ABI codec (primitive
type codec, composite head/tail layout engine), the selector and signature
hasher, the event-log decoder, the search-log aggregator, and the `Vweb3`
class methods `searchLogs` and `isConnected` from `src/vweb3.js`.

Bytes are modelled as `Nat` values (a well-formed byte is `< 256`); encoded
buffers are `List Nat`.  Fallible operations return `Except AbiError`.
-/

/-- Error kinds of the codec (spec section 7): `RangeError`, `FormatError`,
`DecodeError`.  `Unresolved` is not an error and is modelled as a success
constructor of the event-log decoder result. -/
inductive AbiError where
  | rangeError
  | formatError
  | decodeError
deriving DecidableEq

/-- Modelled from the spec: the repository's ABI formatter sources
(`src/formatters/encoder.js`, `src/formatters/decoder.js`) are not present;
`TypeSignature` is modelled in its parsed structured form (spec section 3 and
design note on string-based type dispatch): unsigned/signed integers of a
declared bit width, boolean, address, fixed-size bytes, dynamic bytes,
string, dynamic arrays `T[]`, fixed-size arrays `T[n]` and tuples
`(T1,...,Tk)`. -/
inductive Ty where
  | uint (bits : Nat)
  | int (bits : Nat)
  | bool
  | address
  | bytesN (n : Nat)
  | bytes
  | string
  | arr (elem : Ty)
  | fixedArr (elem : Ty) (n : Nat)
  | tuple (comps : List Ty)

/-- Application-level values fed to / produced by the codec. -/
inductive Val where
  | vuint (n : Nat)
  | vint (i : Int)
  | vbool (b : Bool)
  | vaddr (bs : List Nat)
  | vbytesN (bs : List Nat)
  | vbytes (bs : List Nat)
  | vstr (bs : List Nat)
  | varr (xs : List Val)
  | vtuple (xs : List Val)

mutual

/-- Classification of a type signature as static or dynamic; a pure function
of the signature (spec section 3 invariant): `bytes`, `string` and `T[]` are
dynamic, a fixed-size array is dynamic exactly when its element type is, a
tuple exactly when some component is. -/
def Ty.isDynamic : Ty → Bool
  | .bytes => true
  | .string => true
  | .arr _ => true
  | .fixedArr e _ => e.isDynamic
  | .tuple comps => Ty.anyDynamic comps
  | _ => false

/-- Whether any type of the list is dynamic. -/
def Ty.anyDynamic : List Ty → Bool
  | [] => false
  | t :: ts => t.isDynamic || Ty.anyDynamic ts

end

mutual

/-- Well-formedness of a type signature: integer widths are 8–256 bits in
multiples of 8, fixed bytes are 1–32 bytes (spec section 4.1); fixed-size
arrays have at least one element and tuples at least one component (the
source language admits no zero-size types). -/
def validTy : Ty → Bool
  | .uint bits => decide (8 ≤ bits ∧ bits ≤ 256 ∧ bits % 8 = 0)
  | .int bits => decide (8 ≤ bits ∧ bits ≤ 256 ∧ bits % 8 = 0)
  | .bytesN n => decide (1 ≤ n ∧ n ≤ 32)
  | .arr e => validTy e
  | .fixedArr e n => decide (1 ≤ n) && validTy e
  | .tuple comps => !comps.isEmpty && validTys comps
  | _ => true

/-- Well-formedness of every type of a list. -/
def validTys : List Ty → Bool
  | [] => true
  | t :: ts => validTy t && validTys ts

end

mutual

/-- The in-place encoded width in bytes of a static type: primitives occupy
one 32-byte word, a fixed-size array `n` times its element's width, a tuple
the sum of its components' widths (spec section 4.2: for static
tuples/fixed arrays the head holds the corresponding multiple words). -/
def staticSize : Ty → Nat
  | .fixedArr e n => n * staticSize e
  | .tuple comps => staticSizes comps
  | _ => 32

/-- Sum of the static widths of a list of types. -/
def staticSizes : List Ty → Nat
  | [] => 0
  | t :: ts => staticSize t + staticSizes ts

end

/-- Head-region width of one parameter: a dynamic parameter contributes one
32-byte offset word, a static parameter its full in-place width. -/
def headWidth (t : Ty) : Nat := if t.isDynamic then 32 else staticSize t

/-- Total width of the head region of a parameter list. -/
def headsLen : List Ty → Nat
  | [] => 0
  | t :: ts => headWidth t + headsLen ts

/-- Big-endian bytes of `n`, zero-padded on the left to exactly `k` bytes. -/
def natToBytesBE (k n : Nat) : List Nat :=
  (List.range k).map (fun i => n / 256 ^ (k - 1 - i) % 256)

/-- Big-endian interpretation of a byte list as a natural number. -/
def bytesToNat (bs : List Nat) : Nat := bs.foldl (fun acc b => acc * 256 + b) 0

/-- A 32-byte encoded word holding the number `n` (spec: EncodedWord). -/
def word32 (n : Nat) : List Nat := natToBytesBE 32 n

/-- Read one 32-byte word from the front of a buffer; buffer underrun is a
`DecodeError` (spec section 7). -/
def readWord (buf : List Nat) : Except AbiError Nat :=
  if 32 ≤ buf.length then .ok (bytesToNat (buf.take 32)) else .error .decodeError

/-- Right-pad a byte string with zeros to the next 32-byte boundary (spec
section 4.1, dynamic `bytes`/`string` content padding). -/
def padRight32 (bs : List Nat) : List Nat :=
  bs ++ List.replicate ((32 - bs.length % 32) % 32) 0

/-- A UTF-8 continuation byte. -/
def isContByte (b : Nat) : Bool := decide (128 ≤ b ∧ b ≤ 191)

/-- Validity of a byte string as UTF-8 encoded text (spec section 4.1:
`string` content is interpreted as validly-encoded text). -/
def validUtf8 : List Nat → Bool
  | [] => true
  | b :: rest =>
    if b ≤ 127 then validUtf8 rest
    else if 194 ≤ b ∧ b ≤ 223 then
      match rest with
      | c1 :: r => isContByte c1 && validUtf8 r
      | [] => false
    else if b = 224 then
      match rest with
      | c1 :: c2 :: r => decide (160 ≤ c1 ∧ c1 ≤ 191) && isContByte c2 && validUtf8 r
      | _ => false
    else if 225 ≤ b ∧ b ≤ 236 then
      match rest with
      | c1 :: c2 :: r => isContByte c1 && isContByte c2 && validUtf8 r
      | _ => false
    else if b = 237 then
      match rest with
      | c1 :: c2 :: r => decide (128 ≤ c1 ∧ c1 ≤ 159) && isContByte c2 && validUtf8 r
      | _ => false
    else if 238 ≤ b ∧ b ≤ 239 then
      match rest with
      | c1 :: c2 :: r => isContByte c1 && isContByte c2 && validUtf8 r
      | _ => false
    else if b = 240 then
      match rest with
      | c1 :: c2 :: c3 :: r =>
        decide (144 ≤ c1 ∧ c1 ≤ 191) && isContByte c2 && isContByte c3 && validUtf8 r
      | _ => false
    else if 241 ≤ b ∧ b ≤ 243 then
      match rest with
      | c1 :: c2 :: c3 :: r => isContByte c1 && isContByte c2 && isContByte c3 && validUtf8 r
      | _ => false
    else if b = 244 then
      match rest with
      | c1 :: c2 :: c3 :: r =>
        decide (128 ≤ c1 ∧ c1 ≤ 143) && isContByte c2 && isContByte c3 && validUtf8 r
      | _ => false
    else false

/-- Encode a sequence of values with a given element encoder, failing on the
first element failure. -/
def encodeSeqWith (enc : Val → Except AbiError (List Nat)) : List Val → Except AbiError (List (List Nat))
  | [] => .ok []
  | x :: xs => do
    let h ← enc x
    let r ← encodeSeqWith enc xs
    .ok (h :: r)

/-- Head words of a sequence of dynamic tail entries: byte offsets measured
from the start of the enclosing head region, each tail placed immediately
after the previous one (spec section 4.2). -/
def buildHeads (base : Nat) : List (List Nat) → List Nat
  | [] => []
  | t :: ts => word32 base ++ buildHeads (base + t.length) ts

mutual

/-- The domain of in-range, well-formed values for a type signature:
integers within the declared bit width, addresses of exactly 20 bytes,
byte strings of genuine bytes, string content that is valid text, arrays
whose elements are all in the element type's domain (a fixed-size array
holding exactly its declared count), tuples componentwise. -/
def inDomain : Ty → Val → Bool
  | .uint bits, .vuint n => decide (n < 2 ^ bits)
  | .int bits, .vint i => decide (-(2 ^ (bits - 1) : Int) ≤ i ∧ i < 2 ^ (bits - 1))
  | .bool, .vbool _ => true
  | .address, .vaddr bs => decide (bs.length = 20) && bs.all (fun b => decide (b < 256))
  | .bytesN n, .vbytesN bs => decide (bs.length = n) && bs.all (fun b => decide (b < 256))
  | .bytes, .vbytes bs => bs.all (fun b => decide (b < 256))
  | .string, .vstr bs => bs.all (fun b => decide (b < 256)) && validUtf8 bs
  | .arr e, .varr xs => xs.all (fun x => inDomain e x)
  | .fixedArr e n, .varr xs => decide (xs.length = n) && xs.all (fun x => inDomain e x)
  | .tuple comps, .vtuple xs => inDomainComps comps xs
  | _, _ => false

/-- Componentwise domain membership of a value list against a type list. -/
def inDomainComps : List Ty → List Val → Bool
  | [], [] => true
  | t :: ts, v :: vs => inDomain t v && inDomainComps ts vs
  | _, _ => false

end

mutual

/-- Modelled from the spec: the static-type encoder of `encodePrimitive`
(spec sections 4.1 and 4.2) from the missing `src/formatters/encoder.js`:
primitives encode as one left- or right-padded 32-byte word with
range/format checks; a static fixed-size array encodes its elements in
place, a static tuple its components in place (multiple head words). -/
def encodeStatic : Ty → Val → Except AbiError (List Nat)
  | .uint bits, .vuint n =>
    if n < 2 ^ bits then .ok (word32 n) else .error .rangeError
  | .int bits, .vint i =>
    if -(2 ^ (bits - 1) : Int) ≤ i ∧ i < 2 ^ (bits - 1) then
      .ok (word32 (if i < 0 then (i + 2 ^ 256).toNat else i.toNat))
    else .error .rangeError
  | .bool, .vbool b => .ok (word32 (if b then 1 else 0))
  | .address, .vaddr bs =>
    if bs.length = 20 then .ok (List.replicate 12 0 ++ bs) else .error .formatError
  | .bytesN n, .vbytesN bs =>
    if bs.length = n then .ok (bs ++ List.replicate (32 - n) 0) else .error .formatError
  | .fixedArr e n, .varr xs =>
    if xs.length = n then do
      let ws ← encodeSeqWith (fun x => encodeStatic e x) xs
      .ok ws.flatten
    else .error .formatError
  | .tuple comps, .vtuple xs => encodeStaticComps comps xs
  | _, _ => .error .formatError

/-- In-place encoding of a static tuple's components, concatenated in
declaration order. -/
def encodeStaticComps : List Ty → List Val → Except AbiError (List Nat)
  | [], [] => .ok []
  | t :: ts, v :: vs => do
    let w ← encodeStatic t v
    let r ← encodeStaticComps ts vs
    .ok (w ++ r)
  | _, _ => .error .formatError

end

/-- Decode `count` array elements from an element region: dynamic elements
through an offset word each (32 bytes of head per element), static elements
in place at `stride` bytes each (spec section 4.2). -/
def decodeElemsWith (isDyn : Bool) (stride : Nat) (dec : List Nat → Except AbiError Val)
    (region : List Nat) : Nat → Nat → Except AbiError (List Val)
  | 0, _ => .ok []
  | n + 1, pos =>
    if isDyn then do
      let off ← readWord (region.drop pos)
      let v ← dec (region.drop off)
      let r ← decodeElemsWith isDyn stride dec region n (pos + 32)
      .ok (v :: r)
    else do
      let v ← dec (region.drop pos)
      let r ← decodeElemsWith isDyn stride dec region n (pos + stride)
      .ok (v :: r)

mutual

/-- Modelled from the spec: the static-type decoder of `decodePrimitive`
(spec sections 4.1 and 4.2) from the missing `src/formatters/decoder.js`:
primitives read the leading 32-byte word of the buffer (underrun is a
`DecodeError`); a static fixed-size array decodes its elements in place at
their static stride, a static tuple its components in place. -/
def decodeStatic : Ty → List Nat → Except AbiError Val
  | .uint _, buf =>
    if buf.length < 32 then .error .decodeError
    else .ok (.vuint (bytesToNat (buf.take 32)))
  | .int _, buf =>
    if buf.length < 32 then .error .decodeError
    else
      let n := bytesToNat (buf.take 32)
      .ok (.vint (if n < 2 ^ 255 then (n : Int) else (n : Int) - 2 ^ 256))
  | .bool, buf =>
    if buf.length < 32 then .error .decodeError
    else .ok (.vbool (bytesToNat (buf.take 32) != 0))
  | .address, buf =>
    if buf.length < 32 then .error .decodeError
    else .ok (.vaddr ((buf.take 32).drop 12))
  | .bytesN n, buf =>
    if buf.length < 32 then .error .decodeError
    else .ok (.vbytesN ((buf.take 32).take n))
  | .fixedArr e n, buf => do
    let vs ← decodeElemsWith false (staticSize e) (decodeStatic e) buf n 0
    .ok (.varr vs)
  | .tuple comps, buf => do
    let vs ← decodeStaticComps comps buf
    .ok (.vtuple vs)
  | _, _ => .error .decodeError

/-- In-place decoding of a static tuple's components, each at the running
offset given by the preceding components' static widths. -/
def decodeStaticComps : List Ty → List Nat → Except AbiError (List Val)
  | [], _ => .ok []
  | t :: ts, buf => do
    let v ← decodeStatic t buf
    let r ← decodeStaticComps ts (buf.drop (staticSize t))
    .ok (v :: r)

end

/-- Per-parameter pieces of the head/tail layout. -/
inductive LayoutPart where
  | staticPart (w : List Nat)
  | dynPart (tail : List Nat)

/-- The head region: static values in place (possibly multiple words),
offsets for dynamic values, in declaration order (spec section 4.2). -/
def assembleHeads (base : Nat) : List LayoutPart → List Nat
  | [] => []
  | .staticPart w :: ps => w ++ assembleHeads base ps
  | .dynPart tl :: ps => word32 base ++ assembleHeads (base + tl.length) ps

/-- The tail region: dynamic tail entries in declaration order. -/
def assembleTails : List LayoutPart → List Nat
  | [] => []
  | .staticPart _ :: ps => assembleTails ps
  | .dynPart tl :: ps => tl ++ assembleTails ps

mutual

/-- Modelled from the spec: tail-entry encoding of a dynamic type (spec
sections 4.1 and 4.2) from the missing `src/formatters/encoder.js`:
`bytes`/`string` are a length word plus right-padded content; a dynamic
array is a length word plus its elements (static elements in place, dynamic
elements via an offset head region); a fixed-size array of dynamic elements
is the same element layout without the length word; a dynamic tuple is the
head/tail layout of its components. -/
def encodeTail : Ty → Val → Except AbiError (List Nat)
  | .bytes, .vbytes bs => .ok (word32 bs.length ++ padRight32 bs)
  | .string, .vstr bs => .ok (word32 bs.length ++ padRight32 bs)
  | .arr e, .varr xs =>
    if e.isDynamic then do
      let tails ← encodeSeqWith (fun x => encodeTail e x) xs
      .ok (word32 xs.length ++ buildHeads (32 * xs.length) tails ++ tails.flatten)
    else do
      let ws ← encodeSeqWith (fun x => encodeStatic e x) xs
      .ok (word32 xs.length ++ ws.flatten)
  | .fixedArr e n, .varr xs =>
    if e.isDynamic then
      if xs.length = n then do
        let tails ← encodeSeqWith (fun x => encodeTail e x) xs
        .ok (buildHeads (32 * xs.length) tails ++ tails.flatten)
      else .error .formatError
    else .error .formatError
  | .tuple comps, .vtuple xs => do
    let parts ← encodeParts2 comps xs
    .ok (assembleHeads (headsLen comps) parts ++ assembleTails parts)
  | _, _ => .error .formatError

/-- Encode each parameter into its layout piece: static parameters to their
in-place words, dynamic parameters to their tail entries. -/
def encodeParts2 : List Ty → List Val → Except AbiError (List LayoutPart)
  | [], [] => .ok []
  | t :: ts, v :: vs =>
    if t.isDynamic then do
      let tl ← encodeTail t v
      let r ← encodeParts2 ts vs
      .ok (.dynPart tl :: r)
    else do
      let w ← encodeStatic t v
      let r ← encodeParts2 ts vs
      .ok (.staticPart w :: r)
  | _, _ => .error .formatError

end

mutual

/-- Modelled from the spec: tail-entry decoding of a dynamic type (spec
sections 4.1 and 4.2) from the missing `src/formatters/decoder.js`: reads
the length word, then slices exactly that many content bytes or decodes
that many elements; a fixed-size array of dynamic elements has no length
word, its count coming from the type; a dynamic tuple decodes as a
component head region; any read past the end of the buffer is a
`DecodeError`. -/
def decodeTail : Ty → List Nat → Except AbiError Val
  | .bytes, buf => do
    let len ← readWord buf
    if 32 + len ≤ buf.length then .ok (.vbytes ((buf.drop 32).take len))
    else .error .decodeError
  | .string, buf => do
    let len ← readWord buf
    if 32 + len ≤ buf.length then
      if validUtf8 ((buf.drop 32).take len) then .ok (.vstr ((buf.drop 32).take len))
      else .error .decodeError
    else .error .decodeError
  | .arr e, buf => do
    let n ← readWord buf
    let vs ← decodeElemsWith e.isDynamic (staticSize e)
      (if e.isDynamic then decodeTail e else decodeStatic e) (buf.drop 32) n 0
    .ok (.varr vs)
  | .fixedArr e n, buf =>
    if e.isDynamic then do
      let vs ← decodeElemsWith true (staticSize e) (decodeTail e) buf n 0
      .ok (.varr vs)
    else .error .decodeError
  | .tuple comps, buf => do
    let vs ← decodeHeads buf comps 0
    .ok (.vtuple vs)
  | _, _ => .error .decodeError

/-- Decode the parameters one head entry at a time (spec section 4.2:
static parameters decode directly in place, advancing by their static
width; dynamic parameters through their 32-byte offset word into the tail
region). -/
def decodeHeads (buf : List Nat) : List Ty → Nat → Except AbiError (List Val)
  | [], _ => .ok []
  | t :: ts, pos =>
    if t.isDynamic then do
      let off ← readWord (buf.drop pos)
      let v ← decodeTail t (buf.drop off)
      let r ← decodeHeads buf ts (pos + 32)
      .ok (v :: r)
    else do
      let v ← decodeStatic t (buf.drop pos)
      let r ← decodeHeads buf ts (pos + staticSize t)
      .ok (v :: r)

end

/-- Modelled from the spec: `encodeParameters` (spec section 4.2) from the
missing `src/formatters/encoder.js`: standard ABI head/tail layout over an
ordered parameter list. -/
def encodeParameters (ts : List Ty) (vs : List Val) : Except AbiError (List Nat) :=
  if ts.length = vs.length then do
    let parts ← encodeParts2 ts vs
    .ok (assembleHeads (headsLen ts) parts ++ assembleTails parts)
  else .error .formatError

/-- Modelled from the spec: `decodeParameters` (spec section 4.2) from the
missing `src/formatters/decoder.js`. -/
def decodeParameters (ts : List Ty) (buf : List Nat) : Except AbiError (List Val) :=
  decodeHeads buf ts 0

/-- Modelled from the spec: `encodePrimitive` (spec section 4.1): static
types encode as a single word, dynamic types as their tail entry. -/
def encodePrimitive (t : Ty) (v : Val) : Except AbiError (List Nat) :=
  if t.isDynamic then encodeTail t v else encodeStatic t v

/-- Modelled from the spec: `decodePrimitive` (spec section 4.1). -/
def decodePrimitive (t : Ty) (buf : List Nat) : Except AbiError Val :=
  if t.isDynamic then decodeTail t buf else decodeStatic t buf

/-- Joint well-formedness of a schema and a value list: equal lengths, and
each value in its declared type's domain. -/
def validParams (ts : List Ty) (vs : List Val) : Bool :=
  decide (ts.length = vs.length) &&
    (ts.zip vs).all (fun p => validTy p.1 && inDomain p.1 p.2)

/-- A named event parameter: name, type, and whether it is emitted as a
topic (`indexed`) or in the data payload (spec section 3: ParameterList). -/
structure EventParam where
  name : String
  ty : Ty
  indexed : Bool

/-- An event definition from contract metadata (spec section 3:
EventDefinition). -/
structure EventDef where
  name : String
  inputs : List EventParam

/-- A raw event log as returned by the RPC transport (spec section 3:
RawLog): topic words plus one opaque data payload, with the emitting
contract address carried through. -/
structure RawLog where
  address : List Nat
  topics : List (List Nat)
  data : List Nat

/-- Lookup of a signature hash in the caller-supplied metadata table
(spec section 4.4). -/
def lookupEvent (table : List (List Nat × EventDef)) (t0 : List Nat) : Option EventDef :=
  match table with
  | [] => none
  | (k, ev) :: rest => if k = t0 then some ev else lookupEvent rest t0

/-- Decode one indexed parameter from one topic word: static types decode
as a single static primitive; dynamic-typed indexed parameters yield only
their 32-byte hash commitment (spec section 4.4). -/
def decodeTopic (t : Ty) (w : List Nat) : Except AbiError Val :=
  if t.isDynamic then .ok (.vbytesN w) else decodeStatic t w

/-- Decode the indexed parameters one-for-one from the topic words in
declaration order (spec section 4.4). -/
def decodeTopics : List EventParam → List (List Nat) → Except AbiError (List Val)
  | [], _ => .ok []
  | p :: ps, w :: ws => do
    let v ← decodeTopic p.ty w
    let r ← decodeTopics ps ws
    .ok (v :: r)
  | _ :: _, [] => .error .decodeError

/-- Reassemble the named result fields in original declaration order from
the decoded indexed and non-indexed value queues (spec section 4.4). -/
def mergeFields : List EventParam → List Val → List Val → List (String × Val)
  | [], _, _ => []
  | p :: ps, ivs, nvs =>
    if p.indexed then
      match ivs with
      | iv :: ivs2 => (p.name, iv) :: mergeFields ps ivs2 nvs
      | [] => []
    else
      match nvs with
      | nv :: nvs2 => (p.name, nv) :: mergeFields ps ivs nvs2
      | [] => []

/-- Result of decoding one raw log: either a resolved named-field record or
the unresolved raw log passed through unchanged (spec section 3:
DecodedLog). -/
inductive DecodedLog where
  | unresolved (log : RawLog)
  | resolved (eventName : String) (fields : List (String × Val))

/-- Modelled from the spec: `decodeLog` (spec section 4.4) from the missing
`src/formatters/decoder.js`: look up `topics[0]` in the table; absent means
`Unresolved` with the raw log unchanged (never an error); present means the
indexed parameters decode from the remaining topics (whose count must match,
else `DecodeError`) and the non-indexed parameters decode from the data
payload via the composite layout engine. -/
def decodeLog (table : List (List Nat × EventDef)) (log : RawLog) :
    Except AbiError DecodedLog :=
  match log.topics with
  | [] => .ok (.unresolved log)
  | t0 :: restTopics =>
    match lookupEvent table t0 with
    | none => .ok (.unresolved log)
    | some ev =>
      if restTopics.length ≠ (ev.inputs.filter (fun p => p.indexed)).length then
        .error .decodeError
      else do
        let ivs ← decodeTopics (ev.inputs.filter (fun p => p.indexed)) restTopics
        let nvs ← decodeParameters
          ((ev.inputs.filter (fun p => !p.indexed)).map (fun p => p.ty)) log.data
        .ok (.resolved ev.name (mergeFields ev.inputs ivs nvs))

/-- JS-level decoded output values produced by the search-log aggregator:
hex strings, numbers, booleans, nested arrays. -/
inductive JSOut where
  | str (s : String)
  | num (i : Int)
  | boolV (b : Bool)
  | arr (xs : List JSOut)

/-- Lower-case hexadecimal digit. -/
def hexDigit (n : Nat) : Char :=
  if n < 10 then Char.ofNat (48 + n) else Char.ofNat (87 + n)

/-- Lower-case hexadecimal rendering of a byte string. -/
def bytesToHex (bs : List Nat) : String :=
  String.mk ((bs.map (fun b => [hexDigit (b / 16), hexDigit (b % 16)])).flatten)

/-- Text rendering of decoded string content. -/
def textOfBytes (bs : List Nat) : String :=
  String.mk (bs.map Char.ofNat)

/-- Render a decoded value as its JS-level output form: numbers and booleans
as themselves, addresses and byte strings as 0x-prefixed hex strings,
text as text (spec section 4.5 output). -/
def formatVal : Val → JSOut
  | .vuint n => .num n
  | .vint i => .num i
  | .vbool b => .boolV b
  | .vaddr bs => .str ("0x" ++ bytesToHex bs)
  | .vbytesN bs => .str ("0x" ++ bytesToHex bs)
  | .vbytes bs => .str ("0x" ++ bytesToHex bs)
  | .vstr bs => .str (textOfBytes bs)
  | .varr xs => .arr (xs.attach.map (fun p => formatVal p.1))
  | .vtuple xs => .arr (xs.attach.map (fun p => formatVal p.1))
decreasing_by
  all_goals
    have h := List.sizeOf_lt_of_mem p.2
    simp
    omega

/-- Remove a leading `0x` marker from a string, if present. -/
def strip0x (s : String) : String :=
  if s.startsWith ("0x") then s.drop 2 else s

/-- The hex-prefix-stripping post-processing pass over one decoded output
value (spec section 4.5): each string field beginning with `0x` loses
exactly that marker; numeric and boolean fields are unaffected. -/
def stripJS : JSOut → JSOut
  | .str s => .str (strip0x s)
  | .num i => .num i
  | .boolV b => .boolV b
  | .arr xs => .arr (xs.attach.map (fun p => stripJS p.1))
decreasing_by
  have h := List.sizeOf_lt_of_mem p.2
  simp
  omega

/-- One entry of the batch decode output: a resolved named-field record, an
unresolved raw log passed through intact, or an isolated per-entry failure
(spec section 7: a malformed log must not abort the rest of the batch). -/
inductive SearchLogEntry where
  | unresolved (log : RawLog)
  | resolved (name : String) (fields : List (String × JSOut))
  | failed (e : AbiError)

/-- Apply the hex-prefix-stripping pass to a resolved entry's fields;
unresolved raw logs are passed through intact. -/
def stripEntry : SearchLogEntry → SearchLogEntry
  | .resolved n fs => .resolved n (fs.map (fun p => (p.1, stripJS p.2)))
  | e => e

/-- Decode one raw log of the batch into its output entry. -/
def decodeEntryCore (table : List (List Nat × EventDef)) (log : RawLog) : SearchLogEntry :=
  match decodeLog table log with
  | .ok (.unresolved l) => .unresolved l
  | .ok (.resolved n fs) => .resolved n (fs.map (fun p => (p.1, formatVal p.2)))
  | .error e => .failed e

/-- Decode one raw log, applying the hex-prefix-stripping pass when the
flag is set. -/
def decodeEntry (table : List (List Nat × EventDef)) (removeHex : Bool) (log : RawLog) :
    SearchLogEntry :=
  if removeHex then stripEntry (decodeEntryCore table log) else decodeEntryCore table log

/-- Modelled from the spec: `decodeSearchLog` (spec section 4.5) from the
missing `src/formatters/decoder.js`: applies the event-log decoder to every
raw log of the batch in input order, optionally stripping the `0x` marker
from decoded hex string fields. -/
def decodeSearchLog (results : List RawLog) (table : List (List Nat × EventDef))
    (removeHex : Bool) : List SearchLogEntry :=
  results.map (decodeEntry table removeHex)

mutual

/-- Canonical type name of a type signature (spec section 4.3); tuple
components are rendered recursively as `(t1,t2)`. -/
def canonicalTyName : Ty → String
  | .uint bits => "uint" ++ toString bits
  | .int bits => "int" ++ toString bits
  | .bool => "bool"
  | .address => "address"
  | .bytesN n => "bytes" ++ toString n
  | .bytes => "bytes"
  | .string => "string"
  | .arr e => canonicalTyName e ++ "[]"
  | .fixedArr e n => canonicalTyName e ++ "[" ++ toString n ++ "]"
  | .tuple comps => "(" ++ canonicalTyNames comps ++ ")"

/-- Comma-separated canonical names of a type list. -/
def canonicalTyNames : List Ty → String
  | [] => ""
  | [t] => canonicalTyName t
  | t :: ts => canonicalTyName t ++ "," ++ canonicalTyNames ts

end

/-- The canonical signature string `name(type1,type2,...)` (spec section
4.3). -/
def canonicalSignature (name : String) (params : List Ty) : String :=
  name ++ "(" ++ String.intercalate (",") (params.map canonicalTyName) ++ ")"

/-- Modelled from the spec: `functionSelector` (spec section 4.3) from the
missing encoder source.  The ecosystem's standard 256-bit hash function is
an external library, abstracted here as the `hash` parameter; the selector
is the first 4 bytes of the hash of the canonical signature string. -/
def functionSelector (hash : String → List Nat) (name : String) (params : List Ty) :
    List Nat :=
  (hash (canonicalSignature name params)).take 4

/-- Modelled from the spec: `eventSignatureHash` (spec section 4.3): the
full 32-byte hash of the canonical signature string. -/
def eventSignatureHash (hash : String → List Nat) (name : String) (params : List Ty) :
    List Nat :=
  hash (canonicalSignature name params)

/-- A dynamically-typed JS value as relevant to `vweb3.js` argument
validation: a number (finite or not), a string, a boolean, an array, a
plain object, null, or undefined. -/
inductive JSVal where
  | num (finite : Bool)
  | str (s : String)
  | boolV (b : Bool)
  | arr (xs : List JSVal)
  | obj
  | nullV
  | undef

/-- lodash `isFinite`: true exactly for finite numbers. -/
def jsIsFinite : JSVal → Bool
  | .num f => f
  | _ => false

/-- lodash `isString`. -/
def jsIsString : JSVal → Bool
  | .str _ => true
  | _ => false

/-- lodash `isArray`. -/
def jsIsArray : JSVal → Bool
  | .arr _ => true
  | _ => false

/-- JS `typeof`: arrays, plain objects and null are all of type
`"object"`. -/
def jsTypeof : JSVal → String
  | .num _ => "number"
  | .str _ => "string"
  | .boolV _ => "boolean"
  | .arr _ => "object"
  | .obj => "object"
  | .nullV => "object"
  | .undef => "undefined"

/-- The validated request assembled by `searchLogs` and sent as the RPC
parameters (`fromBlock`, `toBlock`, the `addresses` wrapper object's array,
the `topics` wrapper object's array). -/
structure SearchLogsRequest where
  fromBlock : JSVal
  toBlock : JSVal
  addresses : List JSVal
  topics : List JSVal

/-- A single string becomes a one-element array, an array is taken as is,
anything else is rejected (`src/vweb3.js` lines 250-266). -/
def normalizeListArg : JSVal → Option (List JSVal)
  | .str s => some [JSVal.str s]
  | .arr xs => some xs
  | _ => none

/-- Embedding of the synchronous argument validation and normalization of
`Vweb3.searchLogs` (`src/vweb3.js` lines 242-270): the checks run in source
order before the RPC call is issued; `.error` carries the thrown Error's
message, `.ok` the request forwarded to `rawCall`. -/
def searchLogs (fromBlock toBlock addresses topics : JSVal) :
    Except String SearchLogsRequest :=
  if !jsIsFinite fromBlock then .error ("fromBlock must be a number")
  else if !jsIsFinite toBlock then .error ("toBlock must be a number.")
  else
    match normalizeListArg addresses with
    | none => .error ("addresses must be a string or an array.")
    | some addrs =>
      match normalizeListArg topics with
      | none => .error ("topics must be a string or an array.")
      | some tps => .ok ⟨fromBlock, toBlock, addrs, tps⟩

/-- Embedding of `Vweb3.isConnected` (`src/vweb3.js` lines 46-53): the
outcome of `rawCall('getnetworkinfo')` is either a resolved JS value or a
rejection with any error; the result is `typeof res === 'object'`, and any
rejection is caught and mapped to `false`. -/
def isConnected {ε : Type} (res : Except ε JSVal) : Bool :=
  match res with
  | .ok v => jsTypeof v == "object"
  | .error _ => false

theorem natToBytesBE_succ (k n : Nat) :
    natToBytesBE (k + 1) n = natToBytesBE k (n / 256) ++ [n % 256] := by
  unfold natToBytesBE
  rw [List.range_succ, List.map_append]
  congr 1
  · apply List.map_congr_left
    intro i hi
    rw [List.mem_range] at hi
    have h1 : k + 1 - 1 - i = (k - 1 - i) + 1 := by omega
    rw [h1, pow_succ, Nat.div_div_eq_div_mul, Nat.mul_comm]
  · simp

theorem natToBytesBE_length (k n : Nat) : (natToBytesBE k n).length = k := by
  simp [natToBytesBE]

theorem bytesToNat_append_single (bs : List Nat) (b : Nat) :
    bytesToNat (bs ++ [b]) = bytesToNat bs * 256 + b := by
  simp [bytesToNat, List.foldl_append]

theorem bytesToNat_natToBytesBE (k n : Nat) (h : n < 256 ^ k) :
    bytesToNat (natToBytesBE k n) = n := by
  induction k generalizing n with
  | zero =>
    simp only [natToBytesBE, List.range_zero, List.map_nil, bytesToNat, List.foldl_nil]
    simp only [pow_zero] at h
    omega
  | succ k ih =>
    have hdiv : n / 256 < 256 ^ k := by
      rw [Nat.div_lt_iff_lt_mul (by norm_num)]
      calc n < 256 ^ (k + 1) := h
        _ = 256 ^ k * 256 := by ring
    rw [natToBytesBE_succ, bytesToNat_append_single, ih _ hdiv]
    omega

theorem word32_length (n : Nat) : (word32 n).length = 32 :=
  natToBytesBE_length 32 n

theorem two_pow_256_eq : (2 : Nat) ^ 256 = 256 ^ 32 := by norm_num

theorem bytesToNat_word32 (n : Nat) (h : n < 2 ^ 256) : bytesToNat (word32 n) = n := by
  apply bytesToNat_natToBytesBE
  rw [← two_pow_256_eq]
  exact h

theorem take32_of_word32_append (n : Nat) (rest : List Nat) :
    (word32 n ++ rest).take 32 = word32 n := by
  rw [show (32 : Nat) = (word32 n).length from (word32_length n).symm, List.take_left]

theorem readWord_word32_append (n : Nat) (rest : List Nat) (h : n < 2 ^ 256) :
    readWord (word32 n ++ rest) = .ok n := by
  unfold readWord
  rw [if_pos (by simp [word32_length])]
  rw [take32_of_word32_append, bytesToNat_word32 n h]

theorem drop32_word32_append (n : Nat) (rest : List Nat) :
    (word32 n ++ rest).drop 32 = rest :=
  List.drop_left' (word32_length n)

theorem exceptBind_ok {α β : Type} (a : α) (f : α → Except AbiError β) :
    (Except.ok a >>= f) = f a := rfl

theorem padRight32_ge (bs : List Nat) : bs.length ≤ (padRight32 bs).length := by
  simp [padRight32]

theorem encodeSeqWith_length (enc : Val → Except AbiError (List Nat))
    (xs : List Val) (rs : List (List Nat)) (h : encodeSeqWith enc xs = .ok rs) :
    rs.length = xs.length := by
  induction xs generalizing rs with
  | nil =>
    simp only [encodeSeqWith] at h
    cases h
    rfl
  | cons x xs ih =>
    simp only [encodeSeqWith] at h
    cases henc : enc x with
    | error e => rw [henc] at h; cases h
    | ok w =>
      rw [henc] at h
      cases hrest : encodeSeqWith enc xs with
      | error e => rw [hrest] at h; cases h
      | ok ws =>
        rw [hrest] at h
        cases h
        simp [ih ws hrest]

theorem buildHeads_length (base : Nat) (ts : List (List Nat)) :
    (buildHeads base ts).length = 32 * ts.length := by
  induction ts generalizing base with
  | nil => simp [buildHeads]
  | cons t ts ih =>
    simp only [buildHeads, List.length_append, List.length_cons, word32_length, ih]
    ring

theorem drop_add_32 (l : List Nat) (pos : Nat) :
    l.drop (pos + 32) = (l.drop pos).drop 32 := by
  rw [List.drop_drop, Nat.add_comm]

theorem drop_add_right (l : List Nat) (pos k : Nat) :
    l.drop (pos + k) = (l.drop pos).drop k := by
  rw [List.drop_drop, Nat.add_comm]

theorem flatten_length_const (s : Nat) (ws : List (List Nat))
    (h : ∀ w ∈ ws, w.length = s) : ws.flatten.length = s * ws.length := by
  induction ws with
  | nil => simp
  | cons w ws ih =>
    simp only [List.flatten_cons, List.length_append, List.length_cons]
    rw [h w (by simp), ih (fun w hw => h w (by simp [hw]))]
    ring

theorem encodeSeqWith_prop (enc : Val → Except AbiError (List Nat))
    (P : List Nat → Prop) (xs : List Val) (ws : List (List Nat))
    (hp : ∀ x ∈ xs, ∀ w, enc x = .ok w → P w)
    (h : encodeSeqWith enc xs = .ok ws) : ∀ w ∈ ws, P w := by
  induction xs generalizing ws with
  | nil =>
    simp only [encodeSeqWith] at h
    cases h
    intro w hw
    cases hw
  | cons x xs ih =>
    simp only [encodeSeqWith] at h
    cases h0 : enc x with
    | error err => rw [h0] at h; cases h
    | ok w0 =>
      rw [h0] at h
      cases h1 : encodeSeqWith enc xs with
      | error err => rw [h1] at h; cases h
      | ok ws0 =>
        rw [h1] at h
        cases h
        intro w hw
        rcases List.mem_cons.mp hw with h2 | h2
        · subst h2
          exact hp x (by simp) _ h0
        · exact ih ws0 (fun x2 hx2 w2 hw2 => hp x2 (by simp [hx2]) w2 hw2) h1 w h2

theorem validTys_mem (ts : List Ty) (h : validTys ts = true) :
    ∀ t ∈ ts, validTy t = true := by
  induction ts with
  | nil =>
    intro t ht
    cases ht
  | cons t0 ts ih =>
    simp only [validTys, Bool.and_eq_true] at h
    intro t ht
    rcases List.mem_cons.mp ht with h2 | h2
    · subst h2
      exact h.1
    · exact ih h.2 t h2

theorem inDomainComps_spec (ts : List Ty) (vs : List Val)
    (h : inDomainComps ts vs = true) :
    ts.length = vs.length ∧ ∀ p ∈ ts.zip vs, inDomain p.1 p.2 = true := by
  induction ts generalizing vs with
  | nil =>
    cases vs with
    | nil => exact ⟨rfl, by simp⟩
    | cons v vs => simp [inDomainComps] at h
  | cons t ts ih =>
    cases vs with
    | nil => simp [inDomainComps] at h
    | cons v vs =>
      simp only [inDomainComps, Bool.and_eq_true] at h
      obtain ⟨h1, h2⟩ := h
      obtain ⟨hlen, hall⟩ := ih vs h2
      refine ⟨by simp [hlen], ?_⟩
      intro p hp
      simp only [List.zip_cons_cons, List.mem_cons] at hp
      rcases hp with hp | hp
      · subst hp
        exact h1
      · exact hall p hp

theorem staticSize_ge_32_aux (N : Nat) (t : Ty) (hN : sizeOf t ≤ N)
    (hv : validTy t = true) : 32 ≤ staticSize t := by
  induction N generalizing t with
  | zero => cases t <;> simp at hN
  | succ N ih => ?_
  cases t
  case fixedArr e n =>
    simp only [validTy, Bool.and_eq_true, decide_eq_true_eq] at hv
    have he : 32 ≤ staticSize e := by
      apply ih e _ hv.2
      simp at hN
      omega
    have hn : 1 ≤ n := hv.1
    show 32 ≤ n * staticSize e
    calc 32 ≤ staticSize e := he
      _ = 1 * staticSize e := by ring
      _ ≤ n * staticSize e := Nat.mul_le_mul_right _ hn
  case tuple comps =>
    simp only [validTy, Bool.and_eq_true] at hv
    obtain ⟨hne, hall⟩ := hv
    cases comps with
    | nil => simp at hne
    | cons c rest =>
      simp only [validTys, Bool.and_eq_true] at hall
      have hc : 32 ≤ staticSize c := by
        apply ih c _ hall.1
        simp at hN
        omega
      show 32 ≤ staticSize c + staticSizes rest
      omega
  all_goals exact Nat.le_refl 32

theorem staticSize_ge_32 (t : Ty) (hv : validTy t = true) : 32 ≤ staticSize t :=
  staticSize_ge_32_aux (sizeOf t) t (Nat.le_refl _) hv

theorem encodeStaticComps_size (ts : List Ty) (vs : List Val) (w : List Nat)
    (IH : ∀ t ∈ ts, ∀ v w2, validTy t = true → encodeStatic t v = .ok w2 →
      w2.length = staticSize t)
    (hv : validTys ts = true)
    (h : encodeStaticComps ts vs = .ok w) : w.length = staticSizes ts := by
  induction ts generalizing vs w with
  | nil =>
    cases vs with
    | nil =>
      simp only [encodeStaticComps] at h
      cases h
      simp [staticSizes]
    | cons v vs =>
      simp only [encodeStaticComps] at h
      cases h
  | cons t ts ih =>
    cases vs with
    | nil =>
      simp only [encodeStaticComps] at h
      cases h
    | cons v vs =>
      simp only [encodeStaticComps] at h
      simp only [validTys, Bool.and_eq_true] at hv
      cases h0 : encodeStatic t v with
      | error err => rw [h0] at h; cases h
      | ok w0 =>
        rw [h0] at h
        cases h1 : encodeStaticComps ts vs with
        | error err => rw [h1] at h; cases h
        | ok r =>
          rw [h1] at h
          simp only [exceptBind_ok] at h
          cases h
          have hw0 : w0.length = staticSize t := IH t (by simp) v w0 hv.1 h0
          have hr : r.length = staticSizes ts :=
            ih vs r (fun t2 ht2 => IH t2 (by simp [ht2])) hv.2 h1
          rw [List.length_append, hw0, hr]
          rfl

theorem encodeStatic_size_aux (N : Nat) (t : Ty) (v : Val) (w : List Nat)
    (hN : sizeOf t ≤ N) (hv : validTy t = true) (h : encodeStatic t v = .ok w) :
    w.length = staticSize t := by
  induction N generalizing t v w with
  | zero => cases t <;> simp at hN
  | succ N ih => ?_
  cases t <;> cases v <;> simp only [encodeStatic] at h
  case uint.vuint bits n =>
    split at h
    · cases h
      exact word32_length _
    · cases h
  case int.vint bits i =>
    split at h
    · cases h
      exact word32_length _
    · cases h
  case bool.vbool b =>
    cases h
    exact word32_length _
  case address.vaddr bs =>
    split at h
    case isTrue hbs =>
      cases h
      show (List.replicate 12 (0 : Nat) ++ bs).length = 32
      simp [hbs]
    case isFalse => cases h
  case bytesN.vbytesN n bs =>
    simp only [validTy, decide_eq_true_eq] at hv
    split at h
    case isTrue hbs =>
      cases h
      show (bs ++ List.replicate (32 - n) (0 : Nat)).length = 32
      simp only [List.length_append, List.length_replicate, hbs]
      omega
    case isFalse => cases h
  case fixedArr.varr e n xs =>
    simp only [validTy, Bool.and_eq_true, decide_eq_true_eq] at hv
    split at h
    case isTrue hx =>
      cases hseq : encodeSeqWith (fun x => encodeStatic e x) xs with
      | error err => rw [hseq] at h; cases h
      | ok ws =>
        rw [hseq] at h
        simp only [exceptBind_ok] at h
        cases h
        have heN : sizeOf e ≤ N := by
          simp at hN
          omega
        have hsz : ∀ w2 ∈ ws, w2.length = staticSize e :=
          encodeSeqWith_prop _ (fun w2 => w2.length = staticSize e) xs ws
            (fun x2 hx2 w2 h2 => ih e x2 w2 heN hv.2 h2) hseq
        rw [flatten_length_const (staticSize e) ws hsz,
          encodeSeqWith_length _ xs ws hseq, hx]
        show staticSize e * n = n * staticSize e
        ring
    case isFalse => cases h
  case tuple.vtuple comps xs =>
    simp only [validTy, Bool.and_eq_true] at hv
    have hlen : w.length = staticSizes comps := by
      apply encodeStaticComps_size comps xs w _ hv.2 h
      intro t2 ht2 v2 w2 hv2 h2
      have hlt := List.sizeOf_lt_of_mem ht2
      apply ih t2 v2 w2 _ hv2 h2
      simp at hN
      omega
    exact hlen
  all_goals cases h

theorem encodeStatic_size (t : Ty) (v : Val) (w : List Nat)
    (hv : validTy t = true) (h : encodeStatic t v = .ok w) : w.length = staticSize t :=
  encodeStatic_size_aux (sizeOf t) t v w (Nat.le_refl _) hv h

theorem decodeElemsWith_staticRT (e : Ty) (s : Nat) (xs : List Val) (ws : List (List Nat))
    (region junk : List Nat) (pos : Nat)
    (IH : ∀ x ∈ xs, ∀ w rest2, encodeStatic e x = .ok w → decodeStatic e (w ++ rest2) = .ok x)
    (hsize : ∀ w ∈ ws, w.length = s)
    (henc : encodeSeqWith (fun x => encodeStatic e x) xs = .ok ws)
    (hreg : region.drop pos = ws.flatten ++ junk) :
    decodeElemsWith false s (decodeStatic e) region xs.length pos = .ok xs := by
  induction xs generalizing ws pos junk with
  | nil =>
    simp only [List.length_nil, decodeElemsWith]
  | cons x xs ih =>
    simp only [encodeSeqWith] at henc
    cases h0 : encodeStatic e x with
    | error err => rw [h0] at henc; cases henc
    | ok w =>
      rw [h0] at henc
      cases hrest : encodeSeqWith (fun x => encodeStatic e x) xs with
      | error err => rw [hrest] at henc; cases henc
      | ok ws0 =>
        rw [hrest] at henc
        cases henc
        have hw : w.length = s := hsize w (by simp)
        have hreg2 : region.drop pos = w ++ (ws0.flatten ++ junk) := by
          rw [hreg]
          simp [List.flatten_cons, List.append_assoc]
        have hx : decodeStatic e (region.drop pos) = .ok x := by
          rw [hreg2]
          exact IH x (by simp) w _ h0
        have hreg3 : region.drop (pos + s) = ws0.flatten ++ junk := by
          rw [drop_add_right, hreg2, List.drop_left' hw]
        have hr : decodeElemsWith false s (decodeStatic e) region xs.length (pos + s) = .ok xs :=
          ih ws0 junk (pos + s) (fun x2 hx2 w2 r2 h2 => IH x2 (by simp [hx2]) w2 r2 h2)
            (fun w2 hw2 => hsize w2 (by simp [hw2])) hrest hreg3
        simp only [List.length_cons, decodeElemsWith, if_neg (by simp : ¬(false = true)),
          hx, exceptBind_ok, hr]

theorem decodeStaticComps_RT (ts : List Ty) (vs : List Val) (w junk : List Nat)
    (IH : ∀ t ∈ ts, ∀ v w2 rest2, validTy t = true → encodeStatic t v = .ok w2 →
      decodeStatic t (w2 ++ rest2) = .ok v)
    (hv : validTys ts = true)
    (henc : encodeStaticComps ts vs = .ok w) :
    decodeStaticComps ts (w ++ junk) = .ok vs := by
  induction ts generalizing vs w with
  | nil =>
    cases vs with
    | nil =>
      simp only [encodeStaticComps] at henc
      cases henc
      simp [decodeStaticComps]
    | cons v vs =>
      simp only [encodeStaticComps] at henc
      cases henc
  | cons t ts ih =>
    cases vs with
    | nil =>
      simp only [encodeStaticComps] at henc
      cases henc
    | cons v vs =>
      simp only [encodeStaticComps] at henc
      simp only [validTys, Bool.and_eq_true] at hv
      cases h0 : encodeStatic t v with
      | error err => rw [h0] at henc; cases henc
      | ok w0 =>
        rw [h0] at henc
        cases h1 : encodeStaticComps ts vs with
        | error err => rw [h1] at henc; cases henc
        | ok r =>
          rw [h1] at henc
          simp only [exceptBind_ok] at henc
          cases henc
          have hw0 : w0.length = staticSize t := encodeStatic_size t v w0 hv.1 h0
          have hassoc : (w0 ++ r) ++ junk = w0 ++ (r ++ junk) := by
            simp [List.append_assoc]
          have hx : decodeStatic t ((w0 ++ r) ++ junk) = .ok v := by
            rw [hassoc]
            exact IH t (by simp) v w0 (r ++ junk) hv.1 h0
          have hdrop : ((w0 ++ r) ++ junk).drop (staticSize t) = r ++ junk := by
            rw [hassoc, List.drop_left' hw0]
          have hr : decodeStaticComps ts (r ++ junk) = .ok vs :=
            ih vs r (fun t2 ht2 => IH t2 (by simp [ht2])) hv.2 h1
          simp only [decodeStaticComps, hx, exceptBind_ok, hdrop, hr]


theorem decodeStatic_encodeStatic_aux (N : Nat) (t : Ty) (v : Val) (w rest : List Nat)
    (hN : sizeOf t ≤ N)
    (hv : validTy t = true) (h : encodeStatic t v = .ok w) :
    decodeStatic t (w ++ rest) = .ok v := by
  induction N generalizing t v w rest with
  | zero => cases t <;> simp at hN
  | succ N ih => ?_
  cases t <;> cases v <;> simp only [encodeStatic] at h
  case uint.vuint bits n =>
    simp only [validTy, decide_eq_true_eq] at hv
    split at h
    case isTrue hrange =>
      cases h
      have hn : n < 2 ^ 256 :=
        lt_of_lt_of_le hrange (Nat.pow_le_pow_right (by norm_num) hv.2.1)
      have hlen : ¬((word32 n ++ rest).length < 32) := by
        simp [word32_length]
      simp only [decodeStatic]
      rw [if_neg hlen, take32_of_word32_append, bytesToNat_word32 n hn]
    case isFalse => cases h
  case int.vint bits i =>
    simp only [validTy, decide_eq_true_eq] at hv
    split at h
    case isTrue hrange =>
      cases h
      obtain ⟨hlo, hhi⟩ := hrange
      have hble : bits - 1 ≤ 255 := by omega
      have hb : (2 : Int) ^ (bits - 1) ≤ 2 ^ 255 := pow_le_pow_right₀ (by norm_num) hble
      have hilo : -(2 : Int) ^ 255 ≤ i := by linarith
      have hihi : i < (2 : Int) ^ 255 := by linarith
      by_cases hneg : i < 0
      · rw [if_pos hneg]
        have hmlt : (i + 2 ^ 256).toNat < 2 ^ 256 := by omega
        have hbr : ¬((i + 2 ^ 256).toNat < 2 ^ 255) := by omega
        have hlen : ¬((word32 ((i + 2 ^ 256).toNat) ++ rest).length < 32) := by
          simp [word32_length]
        simp only [decodeStatic]
        rw [if_neg hlen, take32_of_word32_append, bytesToNat_word32 _ hmlt]
        rw [if_neg hbr]
        have hi : (((i + 2 ^ 256).toNat : Int)) - 2 ^ 256 = i := by omega
        rw [hi]
      · rw [if_neg hneg]
        have hmlt : i.toNat < 2 ^ 256 := by omega
        have hbr : i.toNat < 2 ^ 255 := by omega
        have hlen : ¬((word32 i.toNat ++ rest).length < 32) := by
          simp [word32_length]
        simp only [decodeStatic]
        rw [if_neg hlen, take32_of_word32_append, bytesToNat_word32 _ hmlt]
        rw [if_pos hbr]
        have hi : ((i.toNat : Int)) = i := by omega
        rw [hi]
    case isFalse => cases h
  case bool.vbool b =>
    cases h
    have hlen : ¬((word32 (if b then 1 else 0) ++ rest).length < 32) := by
      simp [word32_length]
    have hn : (if b then 1 else 0) < 2 ^ 256 := by cases b <;> norm_num
    simp only [decodeStatic]
    rw [if_neg hlen, take32_of_word32_append, bytesToNat_word32 _ hn]
    cases b <;> rfl
  case address.vaddr bs =>
    split at h
    case isTrue hbs =>
      cases h
      have hw : (List.replicate 12 (0 : Nat) ++ bs).length = 32 := by
        simp only [List.length_append, List.length_replicate, hbs]
      have hlen : ¬(((List.replicate 12 (0 : Nat) ++ bs) ++ rest).length < 32) := by
        simp only [List.length_append, List.length_replicate, hbs]
        omega
      simp only [decodeStatic]
      rw [if_neg hlen, List.take_left' hw,
        List.drop_left' (show (List.replicate 12 (0 : Nat)).length = 12 by simp)]
    case isFalse => cases h
  case bytesN.vbytesN n bs =>
    simp only [validTy, decide_eq_true_eq] at hv
    split at h
    case isTrue hbs =>
      cases h
      have hw : (bs ++ List.replicate (32 - n) (0 : Nat)).length = 32 := by
        simp only [List.length_append, List.length_replicate, hbs]
        omega
      have hlen : ¬(((bs ++ List.replicate (32 - n) (0 : Nat)) ++ rest).length < 32) := by
        simp only [List.length_append, List.length_replicate, hbs]
        omega
      simp only [decodeStatic]
      rw [if_neg hlen, List.take_left' hw, List.take_left' hbs]
    case isFalse => cases h
  case fixedArr.varr e n xs =>
    simp only [validTy, Bool.and_eq_true, decide_eq_true_eq] at hv
    split at h
    case isTrue hx =>
      cases hseq : encodeSeqWith (fun x => encodeStatic e x) xs with
      | error err => rw [hseq] at h; cases h
      | ok ws =>
        rw [hseq] at h
        simp only [exceptBind_ok] at h
        cases h
        have heN : sizeOf e ≤ N := by
          simp at hN
          omega
        have hsz : ∀ w2 ∈ ws, w2.length = staticSize e :=
          encodeSeqWith_prop _ (fun w2 => w2.length = staticSize e) xs ws
            (fun x2 hx2 w2 h2 => encodeStatic_size_aux N e x2 w2 heN hv.2 h2) hseq
        have hdec : decodeElemsWith false (staticSize e) (decodeStatic e)
            (ws.flatten ++ rest) xs.length 0 = .ok xs := by
          apply decodeElemsWith_staticRT e (staticSize e) xs ws (ws.flatten ++ rest) rest 0
            (fun x2 hx2 w2 r2 h2 => ih e x2 w2 r2 heN hv.2 h2) hsz hseq
          rw [List.drop_zero]
        simp only [decodeStatic]
        rw [show n = xs.length from hx.symm]
        simp only [hdec, exceptBind_ok]
    case isFalse => cases h
  case tuple.vtuple comps xs =>
    simp only [validTy, Bool.and_eq_true] at hv
    have hdec : decodeStaticComps comps (w ++ rest) = .ok xs := by
      apply decodeStaticComps_RT comps xs w rest _ hv.2 h
      intro t2 ht2 v2 w2 r2 hv2 h2
      have hlt := List.sizeOf_lt_of_mem ht2
      apply ih t2 v2 w2 r2 _ hv2 h2
      simp at hN
      omega
    simp only [decodeStatic, hdec, exceptBind_ok]
  all_goals cases h

theorem decodeStatic_encodeStatic (t : Ty) (v : Val) (w rest : List Nat)
    (hv : validTy t = true) (h : encodeStatic t v = .ok w) :
    decodeStatic t (w ++ rest) = .ok v :=
  decodeStatic_encodeStatic_aux (sizeOf t) t v w rest (Nat.le_refl _) hv h

theorem decodeElemsWith_dyn (enc : Val → Except AbiError (List Nat))
    (dec : List Nat → Except AbiError Val) (s : Nat)
    (xs : List Val) (tails : List (List Nat)) (region hrest junk : List Nat)
    (pos base : Nat)
    (IH : ∀ x ∈ xs, ∀ tl junk2, enc x = .ok tl → (tl ++ junk2 : List Nat).length < 2 ^ 256 →
      dec (tl ++ junk2) = .ok x)
    (henc : encodeSeqWith enc xs = .ok tails)
    (hheads : region.drop pos = buildHeads base tails ++ hrest)
    (htails : region.drop base = tails.flatten ++ junk)
    (hlt : base + tails.flatten.length < 2 ^ 256)
    (hreglen : region.length < 2 ^ 256) :
    decodeElemsWith true s dec region xs.length pos = .ok xs := by
  induction xs generalizing tails junk pos base with
  | nil =>
    simp only [List.length_nil, decodeElemsWith]
  | cons x xs ih =>
    simp only [encodeSeqWith] at henc
    cases h0 : enc x with
    | error err => rw [h0] at henc; cases henc
    | ok tl =>
      rw [h0] at henc
      cases hrest2 : encodeSeqWith enc xs with
      | error err => rw [hrest2] at henc; cases henc
      | ok tails0 =>
        rw [hrest2] at henc
        cases henc
        have hb256 : base < 2 ^ 256 := by
          omega
        have hheads2 : region.drop pos =
            word32 base ++ (buildHeads (base + tl.length) tails0 ++ hrest) := by
          rw [hheads]
          simp [buildHeads, List.append_assoc]
        have hread : readWord (region.drop pos) = .ok base := by
          rw [hheads2]
          exact readWord_word32_append base _ hb256
        have htl : region.drop base = tl ++ (tails0.flatten ++ junk) := by
          rw [htails]
          simp [List.flatten_cons, List.append_assoc]
        have hlen3 : (tl ++ (tails0.flatten ++ junk) : List Nat).length < 2 ^ 256 := by
          rw [← htl]
          have hdl := List.length_drop base region
          omega
        have hx : dec (region.drop base) = .ok x := by
          rw [htl]
          exact IH x (by simp) tl _ h0 hlen3
        have hheads3 : region.drop (pos + 32) =
            buildHeads (base + tl.length) tails0 ++ hrest := by
          rw [drop_add_32, hheads2, List.drop_left' (word32_length base)]
        have htails3 : region.drop (base + tl.length) = tails0.flatten ++ junk := by
          rw [drop_add_right, htl, List.drop_left' rfl]
        have hlt3 : base + tl.length + tails0.flatten.length < 2 ^ 256 := by
          simp only [List.flatten_cons, List.length_append] at hlt
          omega
        have hr : decodeElemsWith true s dec region xs.length (pos + 32) = .ok xs :=
          ih tails0 junk (pos + 32) (base + tl.length)
            (fun x2 hx2 tl2 j2 h2 hl2 => IH x2 (by simp [hx2]) tl2 j2 h2 hl2)
            hrest2 hheads3 htails3 hlt3
        simp only [List.length_cons, decodeElemsWith, if_pos rfl, if_true, hread,
          exceptBind_ok, hx, hr]

theorem encodeParts2_headsLen (ts : List Ty) (vs : List Val) (parts : List LayoutPart)
    (hall : ∀ p ∈ ts.zip vs, validTy p.1 = true)
    (henc : encodeParts2 ts vs = .ok parts) (base : Nat) :
    (assembleHeads base parts).length = headsLen ts := by
  induction ts generalizing vs parts base with
  | nil =>
    cases vs with
    | nil =>
      simp only [encodeParts2] at henc
      cases henc
      simp [assembleHeads, headsLen]
    | cons v vs =>
      simp only [encodeParts2] at henc
      cases henc
  | cons t ts ih =>
    cases vs with
    | nil =>
      simp only [encodeParts2] at henc
      cases henc
    | cons v vs =>
      simp only [encodeParts2] at henc
      have hall2 : ∀ p ∈ ts.zip vs, validTy p.1 = true := by
        intro p hp
        exact hall p (by simp [List.zip_cons_cons, hp])
      have hvt : validTy t = true := hall (t, v) (by simp [List.zip_cons_cons])
      cases hdyn : t.isDynamic with
      | true =>
        rw [if_pos hdyn] at henc
        cases h0 : encodeTail t v with
        | error err => rw [h0] at henc; cases henc
        | ok tl =>
          rw [h0] at henc
          cases h1 : encodeParts2 ts vs with
          | error err => rw [h1] at henc; cases henc
          | ok parts0 =>
            rw [h1] at henc
            simp only [exceptBind_ok] at henc
            cases henc
            have hrec := ih vs parts0 hall2 h1 (base + tl.length)
            simp only [assembleHeads, List.length_append, word32_length, headsLen]
            rw [hrec]
            simp [headWidth, hdyn]
      | false =>
        rw [if_neg (by simp [hdyn])] at henc
        cases h0 : encodeStatic t v with
        | error err => rw [h0] at henc; cases henc
        | ok w =>
          rw [h0] at henc
          cases h1 : encodeParts2 ts vs with
          | error err => rw [h1] at henc; cases henc
          | ok parts0 =>
            rw [h1] at henc
            simp only [exceptBind_ok] at henc
            cases henc
            have hw : w.length = staticSize t := encodeStatic_size t v w hvt h0
            have hrec := ih vs parts0 hall2 h1 base
            simp only [assembleHeads, List.length_append, headsLen]
            rw [hw, hrec]
            simp [headWidth, hdyn]

theorem decodeHeads_parts (ts : List Ty) (vs : List Val) (parts : List LayoutPart)
    (buf hrest junk : List Nat) (pos base : Nat)
    (IHdyn : ∀ t ∈ ts, ∀ v enc2 junk3, validTy t = true → inDomain t v = true →
      encodeTail t v = .ok enc2 → (enc2 ++ junk3 : List Nat).length < 2 ^ 256 →
      decodeTail t (enc2 ++ junk3) = .ok v)
    (hall : ∀ p ∈ ts.zip vs, validTy p.1 = true ∧ inDomain p.1 p.2 = true)
    (henc : encodeParts2 ts vs = .ok parts)
    (hheads : buf.drop pos = assembleHeads base parts ++ hrest)
    (htails : buf.drop base = assembleTails parts ++ junk)
    (hbase : base + (assembleTails parts).length ≤ buf.length)
    (hbuf : buf.length < 2 ^ 256) :
    decodeHeads buf ts pos = .ok vs := by
  induction ts generalizing vs parts hrest junk pos base with
  | nil =>
    cases vs with
    | nil =>
      simp only [decodeHeads]
    | cons v vs =>
      simp only [encodeParts2] at henc
      cases henc
  | cons t ts ih =>
    cases vs with
    | nil =>
      simp only [encodeParts2] at henc
      cases henc
    | cons v vs =>
      simp only [encodeParts2] at henc
      have hall2 : ∀ p ∈ ts.zip vs, validTy p.1 = true ∧ inDomain p.1 p.2 = true := by
        intro p hp
        exact hall p (by simp [List.zip_cons_cons, hp])
      have hIH2 : ∀ t2 ∈ ts, ∀ v2 enc2 junk3, validTy t2 = true → inDomain t2 v2 = true →
          encodeTail t2 v2 = .ok enc2 → (enc2 ++ junk3 : List Nat).length < 2 ^ 256 →
          decodeTail t2 (enc2 ++ junk3) = .ok v2 := by
        intro t2 ht2
        exact IHdyn t2 (by simp [ht2])
      obtain ⟨hvt, hdt⟩ := hall (t, v) (by simp [List.zip_cons_cons])
      cases hdyn : t.isDynamic with
      | true =>
        rw [if_pos hdyn] at henc
        cases h0 : encodeTail t v with
        | error err => rw [h0] at henc; cases henc
        | ok tl =>
          rw [h0] at henc
          cases h1 : encodeParts2 ts vs with
          | error err => rw [h1] at henc; cases henc
          | ok parts0 =>
            rw [h1] at henc
            simp only [exceptBind_ok] at henc
            cases henc
            have hb256 : base < 2 ^ 256 := by
              omega
            have hheads2 : buf.drop pos =
                word32 base ++ (assembleHeads (base + tl.length) parts0 ++ hrest) := by
              rw [hheads]
              simp [assembleHeads, List.append_assoc]
            have hread : readWord (buf.drop pos) = .ok base := by
              rw [hheads2]
              exact readWord_word32_append base _ hb256
            have htl : buf.drop base = tl ++ (assembleTails parts0 ++ junk) := by
              rw [htails]
              simp [assembleTails, List.append_assoc]
            have hlen3 : (tl ++ (assembleTails parts0 ++ junk) : List Nat).length < 2 ^ 256 := by
              rw [← htl]
              have hdl := List.length_drop base buf
              omega
            have hx : decodeTail t (buf.drop base) = .ok v := by
              rw [htl]
              exact IHdyn t (by simp) v tl _ hvt hdt h0 hlen3
            have hheads3 : buf.drop (pos + 32) =
                assembleHeads (base + tl.length) parts0 ++ hrest := by
              rw [drop_add_32, hheads2, List.drop_left' (word32_length base)]
            have htails3 : buf.drop (base + tl.length) = assembleTails parts0 ++ junk := by
              rw [drop_add_right, htl, List.drop_left' rfl]
            have hbase3 : base + tl.length + (assembleTails parts0).length ≤ buf.length := by
              simp only [assembleTails, List.length_append] at hbase
              omega
            have hr : decodeHeads buf ts (pos + 32) = .ok vs :=
              ih vs parts0 hrest junk (pos + 32) (base + tl.length) hIH2 hall2 h1
                hheads3 htails3 hbase3
            simp only [decodeHeads, hdyn, if_pos rfl, if_true, hread, exceptBind_ok, hx, hr]
      | false =>
        rw [if_neg (by simp [hdyn])] at henc
        cases h0 : encodeStatic t v with
        | error err => rw [h0] at henc; cases henc
        | ok w =>
          rw [h0] at henc
          cases h1 : encodeParts2 ts vs with
          | error err => rw [h1] at henc; cases henc
          | ok parts0 =>
            rw [h1] at henc
            simp only [exceptBind_ok] at henc
            cases henc
            have hw : w.length = staticSize t := encodeStatic_size t v w hvt h0
            have hheads2 : buf.drop pos = w ++ (assembleHeads base parts0 ++ hrest) := by
              rw [hheads]
              simp [assembleHeads, List.append_assoc]
            have hx : decodeStatic t (buf.drop pos) = .ok v := by
              rw [hheads2]
              exact decodeStatic_encodeStatic t v w _ hvt h0
            have hheads3 : buf.drop (pos + staticSize t) =
                assembleHeads base parts0 ++ hrest := by
              rw [drop_add_right, hheads2, List.drop_left' hw]
            have htails3 : buf.drop base = assembleTails parts0 ++ junk := by
              rw [htails]
              simp [assembleTails]
            have hbase3 : base + (assembleTails parts0).length ≤ buf.length := by
              simp only [assembleTails] at hbase
              exact hbase
            have hr : decodeHeads buf ts (pos + staticSize t) = .ok vs :=
              ih vs parts0 hrest junk (pos + staticSize t) base hIH2 hall2 h1
                hheads3 htails3 hbase3
            simp only [decodeHeads, hdyn, Bool.false_eq_true, if_false, hx, exceptBind_ok, hr]

theorem decodeTail_encodeTail_aux (N : Nat) (t : Ty) (v : Val) (enc junk : List Nat)
    (hN : sizeOf t ≤ N)
    (hv : validTy t = true) (hd : inDomain t v = true)
    (henc : encodeTail t v = .ok enc) (hlen : (enc ++ junk).length < 2 ^ 256) :
    decodeTail t (enc ++ junk) = .ok v := by
  induction N generalizing t v enc junk with
  | zero => cases t <;> simp at hN
  | succ N ih => ?_
  cases t <;> cases v <;> simp only [encodeTail] at henc
  case bytes.vbytes bs =>
    cases henc
    have hpr := padRight32_ge bs
    have hbslen : bs.length < 2 ^ 256 := by
      simp only [List.length_append, word32_length] at hlen
      omega
    have hassoc : (word32 bs.length ++ padRight32 bs) ++ junk =
        word32 bs.length ++ (padRight32 bs ++ junk) := by
      simp [List.append_assoc]
    rw [hassoc]
    simp only [decodeTail, readWord_word32_append _ _ hbslen, exceptBind_ok]
    have hcond : 32 + bs.length ≤ (word32 bs.length ++ (padRight32 bs ++ junk)).length := by
      simp only [List.length_append, word32_length]
      omega
    rw [if_pos hcond, List.drop_left' (word32_length _)]
    have hsplit : padRight32 bs ++ junk =
        bs ++ (List.replicate ((32 - bs.length % 32) % 32) 0 ++ junk) := by
      simp [padRight32, List.append_assoc]
    rw [hsplit, List.take_left' rfl]
  case string.vstr bs =>
    cases henc
    simp only [inDomain, Bool.and_eq_true] at hd
    have hpr := padRight32_ge bs
    have hbslen : bs.length < 2 ^ 256 := by
      simp only [List.length_append, word32_length] at hlen
      omega
    have hassoc : (word32 bs.length ++ padRight32 bs) ++ junk =
        word32 bs.length ++ (padRight32 bs ++ junk) := by
      simp [List.append_assoc]
    rw [hassoc]
    simp only [decodeTail, readWord_word32_append _ _ hbslen, exceptBind_ok]
    have hcond : 32 + bs.length ≤ (word32 bs.length ++ (padRight32 bs ++ junk)).length := by
      simp only [List.length_append, word32_length]
      omega
    rw [if_pos hcond, List.drop_left' (word32_length _)]
    have hsplit : padRight32 bs ++ junk =
        bs ++ (List.replicate ((32 - bs.length % 32) % 32) 0 ++ junk) := by
      simp [padRight32, List.append_assoc]
    rw [hsplit, List.take_left' rfl, if_pos hd.2]
  case arr.varr e xs =>
    have hve : validTy e = true := by simpa only [validTy] using hv
    simp only [inDomain, List.all_eq_true] at hd
    have heN : sizeOf e ≤ N := by
      simp at hN
      omega
    cases hedyn : e.isDynamic with
    | false =>
      rw [if_neg (by simp [hedyn])] at henc
      cases hseq : encodeSeqWith (fun x => encodeStatic e x) xs with
      | error err => rw [hseq] at henc; cases henc
      | ok ws =>
        rw [hseq] at henc
        simp only [exceptBind_ok] at henc
        cases henc
        have hsz : ∀ w2 ∈ ws, w2.length = staticSize e :=
          encodeSeqWith_prop _ (fun w2 => w2.length = staticSize e) xs ws
            (fun x2 hx2 w2 h2 => encodeStatic_size e x2 w2 hve h2) hseq
        have hfl : ws.flatten.length = staticSize e * ws.length :=
          flatten_length_const _ ws hsz
        have hwl : ws.length = xs.length := encodeSeqWith_length _ xs ws hseq
        rw [hwl] at hfl
        have h32 : 32 ≤ staticSize e := staticSize_ge_32 e hve
        have hmul : xs.length ≤ staticSize e * xs.length :=
          Nat.le_mul_of_pos_left _ (by omega)
        have hxslen : xs.length < 2 ^ 256 := by
          simp only [List.length_append, word32_length] at hlen
          omega
        have hassoc : (word32 xs.length ++ ws.flatten) ++ junk =
            word32 xs.length ++ (ws.flatten ++ junk) := by
          simp [List.append_assoc]
        rw [hassoc]
        simp only [decodeTail, hedyn, readWord_word32_append _ _ hxslen, exceptBind_ok,
          Bool.false_eq_true, if_false]
        rw [List.drop_left' (word32_length _)]
        have hdec : decodeElemsWith false (staticSize e) (decodeStatic e)
            (ws.flatten ++ junk) xs.length 0 = .ok xs := by
          apply decodeElemsWith_staticRT e (staticSize e) xs ws (ws.flatten ++ junk) junk 0
            (fun x2 hx2 w2 r2 h2 => decodeStatic_encodeStatic e x2 w2 r2 hve h2) hsz hseq
          rw [List.drop_zero]
        simp only [hdec, exceptBind_ok]
    | true =>
      rw [if_pos hedyn] at henc
      cases hseq : encodeSeqWith (fun x => encodeTail e x) xs with
      | error err => rw [hseq] at henc; cases henc
      | ok tails =>
        rw [hseq] at henc
        simp only [exceptBind_ok] at henc
        cases henc
        have hwl : tails.length = xs.length := encodeSeqWith_length _ xs tails hseq
        have hbh : (buildHeads (32 * xs.length) tails).length = 32 * xs.length := by
          rw [buildHeads_length, hwl]
        have hxslen : xs.length < 2 ^ 256 := by
          simp only [List.length_append, word32_length, hbh] at hlen
          omega
        have hassoc : ((word32 xs.length ++ (buildHeads (32 * xs.length) tails ++ tails.flatten)) ++ junk) =
            word32 xs.length ++ ((buildHeads (32 * xs.length) tails ++ (tails.flatten ++ junk))) := by
          simp [List.append_assoc]
        rw [show word32 xs.length ++ buildHeads (32 * xs.length) tails ++ tails.flatten =
          word32 xs.length ++ (buildHeads (32 * xs.length) tails ++ tails.flatten) by
            simp [List.append_assoc], hassoc]
        simp only [decodeTail, hedyn, readWord_word32_append _ _ hxslen, exceptBind_ok,
          if_pos rfl, if_true]
        rw [List.drop_left' (word32_length _)]
        have hdec : decodeElemsWith true (staticSize e) (decodeTail e)
            (buildHeads (32 * xs.length) tails ++ (tails.flatten ++ junk)) xs.length 0 = .ok xs := by
          apply decodeElemsWith_dyn (fun x => encodeTail e x) (decodeTail e) (staticSize e)
            xs tails _ (tails.flatten ++ junk) junk 0 (32 * xs.length)
            (fun x2 hx2 tl2 j2 h2 hl2 => ih e x2 tl2 j2 heN hve (hd x2 hx2) h2 hl2)
            hseq (by rw [List.drop_zero]) (List.drop_left' hbh) ?hlt ?hreg
          case hlt =>
            simp only [List.length_append, word32_length, hbh] at hlen
            omega
          case hreg =>
            simp only [List.length_append, word32_length, hbh] at hlen ⊢
            omega
        simp only [hdec, exceptBind_ok]
  case fixedArr.varr e n xs =>
    simp only [validTy, Bool.and_eq_true, decide_eq_true_eq] at hv
    simp only [inDomain, Bool.and_eq_true, decide_eq_true_eq, List.all_eq_true] at hd
    have hve : validTy e = true := hv.2
    have heN : sizeOf e ≤ N := by
      simp at hN
      omega
    cases hedyn : e.isDynamic with
    | false =>
      rw [if_neg (by simp [hedyn])] at henc
      cases henc
    | true =>
      rw [if_pos hedyn, if_pos hd.1] at henc
      cases hseq : encodeSeqWith (fun x => encodeTail e x) xs with
      | error err => rw [hseq] at henc; cases henc
      | ok tails =>
        rw [hseq] at henc
        simp only [exceptBind_ok] at henc
        cases henc
        have hwl : tails.length = xs.length := encodeSeqWith_length _ xs tails hseq
        have hbh : (buildHeads (32 * xs.length) tails).length = 32 * xs.length := by
          rw [buildHeads_length, hwl]
        have hassoc : (buildHeads (32 * xs.length) tails ++ tails.flatten) ++ junk =
            buildHeads (32 * xs.length) tails ++ (tails.flatten ++ junk) := by
          simp [List.append_assoc]
        rw [hassoc]
        simp only [decodeTail, hedyn, if_pos rfl, if_true]
        rw [show n = xs.length from hd.1.symm]
        have hdec : decodeElemsWith true (staticSize e) (decodeTail e)
            (buildHeads (32 * xs.length) tails ++ (tails.flatten ++ junk)) xs.length 0 = .ok xs := by
          apply decodeElemsWith_dyn (fun x => encodeTail e x) (decodeTail e) (staticSize e)
            xs tails _ (tails.flatten ++ junk) junk 0 (32 * xs.length)
            (fun x2 hx2 tl2 j2 h2 hl2 => ih e x2 tl2 j2 heN hve (hd.2 x2 hx2) h2 hl2)
            hseq (by rw [List.drop_zero]) (List.drop_left' hbh) ?hlt ?hreg
          case hlt =>
            simp only [List.length_append, hbh] at hlen
            omega
          case hreg =>
            simp only [List.length_append, hbh] at hlen ⊢
            omega
        simp only [hdec, exceptBind_ok, if_true]
  case tuple.vtuple comps xs =>
    simp only [validTy, Bool.and_eq_true] at hv
    simp only [inDomain] at hd
    cases hparts : encodeParts2 comps xs with
    | error err => rw [hparts] at henc; cases henc
    | ok parts =>
      rw [hparts] at henc
      simp only [exceptBind_ok] at henc
      cases henc
      obtain ⟨hlenc, hallzip⟩ := inDomainComps_spec comps xs hd
      have hallv : ∀ p ∈ comps.zip xs, validTy p.1 = true ∧ inDomain p.1 p.2 = true := by
        intro p hp
        exact ⟨validTys_mem comps hv.2 p.1 (List.of_mem_zip hp).1, hallzip p hp⟩
      have hAH : (assembleHeads (headsLen comps) parts).length = headsLen comps :=
        encodeParts2_headsLen comps xs parts (fun p hp => (hallv p hp).1) hparts
          (headsLen comps)
      have hassoc : (assembleHeads (headsLen comps) parts ++ assembleTails parts) ++ junk =
          assembleHeads (headsLen comps) parts ++ (assembleTails parts ++ junk) := by
        simp [List.append_assoc]
      have hdh : decodeHeads ((assembleHeads (headsLen comps) parts ++ assembleTails parts)
          ++ junk) comps 0 = .ok xs := by
        apply decodeHeads_parts comps xs parts _ (assembleTails parts ++ junk) junk 0
          (headsLen comps)
          (fun t2 ht2 v2 e2 j2 hv2 hd2 he2 hl2 => by
            have hlt := List.sizeOf_lt_of_mem ht2
            apply ih t2 v2 e2 j2 _ hv2 hd2 he2 hl2
            simp at hN
            omega)
          hallv hparts ?hheads ?htails ?hbase ?hbuf
        case hheads =>
          rw [List.drop_zero, hassoc]
        case htails =>
          rw [hassoc, List.drop_left' hAH]
        case hbase =>
          simp only [List.length_append, hAH]
          omega
        case hbuf =>
          exact hlen
      simp only [decodeTail, hdh, exceptBind_ok]
  all_goals cases henc

theorem decodeTail_encodeTail (t : Ty) (v : Val) (enc junk : List Nat)
    (hv : validTy t = true) (hd : inDomain t v = true)
    (henc : encodeTail t v = .ok enc) (hlen : (enc ++ junk).length < 2 ^ 256) :
    decodeTail t (enc ++ junk) = .ok v :=
  decodeTail_encodeTail_aux (sizeOf t) t v enc junk (Nat.le_refl _) hv hd henc hlen

theorem decodeParameters_encodeParameters (ts : List Ty) (vs : List Val) (buf : List Nat)
    (hvp : validParams ts vs = true)
    (henc : encodeParameters ts vs = .ok buf) (hbuf : buf.length < 2 ^ 256) :
    decodeParameters ts buf = .ok vs := by
  simp only [validParams, Bool.and_eq_true, decide_eq_true_eq, List.all_eq_true] at hvp
  obtain ⟨hlen_eq, hall0⟩ := hvp
  have hall : ∀ p ∈ ts.zip vs, validTy p.1 = true ∧ inDomain p.1 p.2 = true := by
    intro p hp
    have := hall0 p hp
    simpa [Bool.and_eq_true] using this
  simp only [encodeParameters] at henc
  rw [if_pos hlen_eq] at henc
  cases hparts : encodeParts2 ts vs with
  | error err => rw [hparts] at henc; cases henc
  | ok parts =>
    rw [hparts] at henc
    simp only [exceptBind_ok] at henc
    cases henc
    have hAH : (assembleHeads (headsLen ts) parts).length = headsLen ts :=
      encodeParts2_headsLen ts vs parts (fun p hp => (hall p hp).1) hparts (headsLen ts)
    simp only [decodeParameters]
    apply decodeHeads_parts ts vs parts _ (assembleTails parts) [] 0 (headsLen ts)
      (fun t2 ht2 v2 e2 j2 hv2 hd2 he2 hl2 => decodeTail_encodeTail t2 v2 e2 j2 hv2 hd2 he2 hl2)
      hall hparts ?hheads ?htails ?hbase ?hbuf
    case hheads =>
      rw [List.drop_zero]
    case htails =>
      rw [List.drop_left' hAH, List.append_nil]
    case hbase =>
      simp only [List.length_append, hAH]
      omega
    case hbuf =>
      exact hbuf

theorem decodePrimitive_encodePrimitive (t : Ty) (v : Val) (enc : List Nat)
    (hv : validTy t = true) (hd : inDomain t v = true)
    (henc : encodePrimitive t v = .ok enc) (hlen : enc.length < 2 ^ 256) :
    decodePrimitive t enc = .ok v := by
  simp only [encodePrimitive] at henc
  simp only [decodePrimitive]
  cases hdyn : t.isDynamic with
  | true =>
    rw [if_pos hdyn] at henc
    rw [if_pos rfl]
    have hrt := decodeTail_encodeTail t v enc [] hv hd henc (by simpa using hlen)
    simpa using hrt
  | false =>
    rw [if_neg (by simp [hdyn])] at henc
    rw [if_neg (by simp : ¬(false = true))]
    have hrt := decodeStatic_encodeStatic t v enc [] hv henc
    simpa using hrt


/-- C1: for every TypeSignature and every value in that type's domain,
decoding the output of encoding round-trips:
`decodePrimitive(type, encodePrimitive(type, value)) = value` (any encoding
produced is at most `2^256` bytes long, the largest length a length/offset
word can express). -/
theorem c1_primitive_round_trip (t : Ty) (v : Val) (enc : List Nat)
    (hv : validTy t = true) (hd : inDomain t v = true)
    (henc : encodePrimitive t v = .ok enc) (hlen : enc.length < 2 ^ 256) :
    decodePrimitive t enc = .ok v :=
  decodePrimitive_encodePrimitive t v enc hv hd henc hlen

theorem c1_primitive_round_trip_witness :
    validTy (Ty.uint 256) = true ∧ inDomain (Ty.uint 256) (Val.vuint 7) = true ∧
    encodePrimitive (Ty.uint 256) (Val.vuint 7) = .ok (word32 7) ∧
    (word32 7).length < 2 ^ 256 ∧
    decodePrimitive (Ty.uint 256) (word32 7) = .ok (Val.vuint 7) :=
  ⟨rfl, rfl, rfl, by decide,
    c1_primitive_round_trip (Ty.uint 256) (Val.vuint 7) (word32 7) rfl rfl rfl (by decide)⟩

/-- C2: for every ParameterList schema and every matching in-domain value
set (including nested dynamic arrays and empty arrays/strings),
`decodeParameters(schema, encodeParameters(schema, values)) = values`. -/
theorem c2_parameters_round_trip (ts : List Ty) (vs : List Val) (buf : List Nat)
    (hvp : validParams ts vs = true)
    (henc : encodeParameters ts vs = .ok buf) (hbuf : buf.length < 2 ^ 256) :
    decodeParameters ts buf = .ok vs :=
  decodeParameters_encodeParameters ts vs buf hvp henc hbuf

theorem c2_parameters_round_trip_witness :
    (validParams [Ty.uint 8, Ty.arr (Ty.arr (Ty.uint 8))] [Val.vuint 7, Val.varr []] = true ∧
      encodeParameters [Ty.uint 8, Ty.arr (Ty.arr (Ty.uint 8))] [Val.vuint 7, Val.varr []] =
        .ok (word32 7 ++ word32 64 ++ word32 0) ∧
      (word32 7 ++ word32 64 ++ word32 0).length < 2 ^ 256 ∧
      decodeParameters [Ty.uint 8, Ty.arr (Ty.arr (Ty.uint 8))]
        (word32 7 ++ word32 64 ++ word32 0) = .ok [Val.vuint 7, Val.varr []]) ∧
    (validParams [Ty.tuple [Ty.uint 8, Ty.uint 8], Ty.bytes]
        [Val.vtuple [Val.vuint 1, Val.vuint 2], Val.vbytes []] = true ∧
      encodeParameters [Ty.tuple [Ty.uint 8, Ty.uint 8], Ty.bytes]
        [Val.vtuple [Val.vuint 1, Val.vuint 2], Val.vbytes []] =
        .ok (word32 1 ++ word32 2 ++ word32 96 ++ word32 0) ∧
      decodeParameters [Ty.tuple [Ty.uint 8, Ty.uint 8], Ty.bytes]
        (word32 1 ++ word32 2 ++ word32 96 ++ word32 0) =
        .ok [Val.vtuple [Val.vuint 1, Val.vuint 2], Val.vbytes []]) ∧
    (validParams [Ty.fixedArr (Ty.uint 8) 2] [Val.varr [Val.vuint 3, Val.vuint 4]] = true ∧
      encodeParameters [Ty.fixedArr (Ty.uint 8) 2] [Val.varr [Val.vuint 3, Val.vuint 4]] =
        .ok (word32 3 ++ word32 4) ∧
      decodeParameters [Ty.fixedArr (Ty.uint 8) 2] (word32 3 ++ word32 4) =
        .ok [Val.varr [Val.vuint 3, Val.vuint 4]]) :=
  ⟨⟨rfl, rfl, by decide,
      c2_parameters_round_trip [Ty.uint 8, Ty.arr (Ty.arr (Ty.uint 8))]
        [Val.vuint 7, Val.varr []] (word32 7 ++ word32 64 ++ word32 0) rfl rfl (by decide)⟩,
    ⟨rfl, rfl,
      c2_parameters_round_trip [Ty.tuple [Ty.uint 8, Ty.uint 8], Ty.bytes]
        [Val.vtuple [Val.vuint 1, Val.vuint 2], Val.vbytes []]
        (word32 1 ++ word32 2 ++ word32 96 ++ word32 0) rfl rfl (by decide)⟩,
    ⟨rfl, rfl,
      c2_parameters_round_trip [Ty.fixedArr (Ty.uint 8) 2] [Val.varr [Val.vuint 3, Val.vuint 4]]
        (word32 3 ++ word32 4) rfl rfl (by decide)⟩⟩

/-- C3: an empty dynamic array or empty string/bytes encodes as exactly one
all-zero length word with nothing after it, and decoding that single word
yields the empty sequence without reading past the end of the buffer. -/
theorem c3_empty_dynamic_boundary (e : Ty) :
    encodeTail (Ty.arr e) (Val.varr []) = .ok (word32 0) ∧
    word32 0 = List.replicate 32 0 ∧
    decodeTail (Ty.arr e) (word32 0) = .ok (Val.varr []) ∧
    encodeTail Ty.bytes (Val.vbytes []) = .ok (word32 0) ∧
    decodeTail Ty.bytes (word32 0) = .ok (Val.vbytes []) ∧
    encodeTail Ty.string (Val.vstr []) = .ok (word32 0) ∧
    decodeTail Ty.string (word32 0) = .ok (Val.vstr []) := by
  refine ⟨?_, by decide, rfl, rfl, rfl, rfl, rfl⟩
  cases he : e.isDynamic with
  | true => simp [encodeTail, he, encodeSeqWith, buildHeads, exceptBind_ok]
  | false => simp [encodeTail, he, encodeSeqWith, exceptBind_ok]

/-- C4: for every RawLog whose first topic is not a key of the supplied
EventDefinition table, `decodeLog` returns the unresolved result carrying
the raw log's fields unchanged, and never an error. -/
theorem c4_unresolved_passthrough (table : List (List Nat × EventDef)) (log : RawLog)
    (t0 : List Nat) (rest : List (List Nat))
    (htop : log.topics = t0 :: rest)
    (hlook : lookupEvent table t0 = none) :
    decodeLog table log = .ok (.unresolved log) := by
  simp only [decodeLog, htop, hlook]

theorem c4_unresolved_passthrough_witness :
    (RawLog.mk [1] [[2]] []).topics = [2] :: [] ∧
    lookupEvent [] [2] = none ∧
    decodeLog [] (RawLog.mk [1] [[2]] []) = .ok (.unresolved (RawLog.mk [1] [[2]] [])) :=
  ⟨rfl, rfl, c4_unresolved_passthrough [] (RawLog.mk [1] [[2]] []) [2] [] rfl rfl⟩

/-- C5: for every RawLog whose first topic matches an EventDefinition but
whose remaining topic count differs from the event's indexed-parameter
count, `decodeLog` fails with `DecodeError` (no retry, no decoded
result). -/
theorem c5_topic_count_mismatch (table : List (List Nat × EventDef)) (log : RawLog)
    (t0 : List Nat) (rest : List (List Nat)) (ev : EventDef)
    (htop : log.topics = t0 :: rest)
    (hlook : lookupEvent table t0 = some ev)
    (hcount : rest.length ≠ (ev.inputs.filter (fun p => p.indexed)).length) :
    decodeLog table log = .error .decodeError := by
  simp only [decodeLog, htop, hlook, if_pos hcount]

theorem c5_topic_count_mismatch_witness :
    (RawLog.mk [] [[0]] []).topics = [0] :: [] ∧
    lookupEvent [([0], ⟨"Transfer", [⟨"a", Ty.uint 8, true⟩]⟩)] [0] =
      some ⟨"Transfer", [⟨"a", Ty.uint 8, true⟩]⟩ ∧
    ([] : List (List Nat)).length ≠
      ((⟨"Transfer", [⟨"a", Ty.uint 8, true⟩]⟩ : EventDef).inputs.filter
        (fun p => p.indexed)).length ∧
    decodeLog [([0], ⟨"Transfer", [⟨"a", Ty.uint 8, true⟩]⟩)] (RawLog.mk [] [[0]] []) =
      .error .decodeError :=
  ⟨rfl, rfl, by decide,
    c5_topic_count_mismatch [([0], ⟨"Transfer", [⟨"a", Ty.uint 8, true⟩]⟩)]
      (RawLog.mk [] [[0]] []) [0] [] ⟨"Transfer", [⟨"a", Ty.uint 8, true⟩]⟩
      rfl rfl (by decide)⟩

/-- C6: with the remove-hex flag set, the decoded batch is the flag-off
batch with the stripping pass applied to each entry; the pass removes
exactly the leading `0x` marker from every string field beginning with it
and leaves numeric and boolean fields identical. -/
theorem c6_remove_hex_marker (results : List RawLog) (table : List (List Nat × EventDef)) :
    decodeSearchLog results table true = (decodeSearchLog results table false).map stripEntry ∧
    (∀ s : String, stripJS (.str s) = .str (if s.startsWith ("0x") then s.drop 2 else s)) ∧
    (∀ i : Int, stripJS (.num i) = .num i) ∧
    (∀ b : Bool, stripJS (.boolV b) = .boolV b) ∧
    (∀ n fs, stripEntry (SearchLogEntry.resolved n fs) =
      .resolved n (fs.map (fun p => (p.1, stripJS p.2)))) ∧
    (∀ log, stripEntry (SearchLogEntry.unresolved log) = .unresolved log) := by
  refine ⟨?_, ?_, ?_, ?_, ?_, ?_⟩
  · unfold decodeSearchLog
    rw [List.map_map]
    apply List.map_congr_left
    intro log _
    simp [decodeEntry, Function.comp]
  · intro s
    simp [stripJS, strip0x]
  · intro i
    simp [stripJS]
  · intro b
    simp [stripJS]
  · intro n fs
    simp [stripEntry]
  · intro log
    simp [stripEntry]

/-- C7: the function selector is the first 4 bytes of the 256-bit hash of
the canonical signature string `name(type1,type2,...)`; the event signature
hash is the full hash; both are pure functions of the signature string, so
equal signatures give equal selectors and hashes, and a 32-byte hash gives
a 4-byte selector. -/
theorem c7_selector (hash : String → List Nat) (name1 name2 : String)
    (params1 params2 : List Ty) :
    functionSelector hash name1 params1 =
      (hash (canonicalSignature name1 params1)).take 4 ∧
    eventSignatureHash hash name1 params1 = hash (canonicalSignature name1 params1) ∧
    functionSelector hash name1 params1 = (eventSignatureHash hash name1 params1).take 4 ∧
    (canonicalSignature name1 params1 = canonicalSignature name2 params2 →
      functionSelector hash name1 params1 = functionSelector hash name2 params2 ∧
      eventSignatureHash hash name1 params1 = eventSignatureHash hash name2 params2) ∧
    ((∀ s, (hash s).length = 32) →
      (functionSelector hash name1 params1).length = 4 ∧
      (eventSignatureHash hash name1 params1).length = 32) := by
  refine ⟨rfl, rfl, rfl, fun h => ?_, fun h => ?_⟩
  · unfold functionSelector eventSignatureHash
    rw [h]
    exact ⟨rfl, rfl⟩
  · constructor
    · unfold functionSelector
      rw [List.length_take, h]
      decide
    · exact h _

theorem c7_selector_witness :
    functionSelector (fun s => List.replicate 32 (s.length % 256)) ("transfer")
      [Ty.address, Ty.uint 256] =
      ((fun s : String => List.replicate 32 (s.length % 256))
        (canonicalSignature ("transfer") [Ty.address, Ty.uint 256])).take 4 ∧
    (functionSelector (fun s => List.replicate 32 (s.length % 256)) ("transfer")
      [Ty.address, Ty.uint 256]).length = 4 :=
  ⟨(c7_selector (fun s => List.replicate 32 (s.length % 256)) ("transfer") ("transfer")
      [Ty.address, Ty.uint 256] [Ty.address, Ty.uint 256]).1,
    ((c7_selector (fun s => List.replicate 32 (s.length % 256)) ("transfer") ("transfer")
      [Ty.address, Ty.uint 256] [Ty.address, Ty.uint 256]).2.2.2.2
      (fun s => by simp)).1⟩

/-- C8: `decodeSearchLog` applies the event-log decoder to every raw log of
the input in input order — same length, i-th output decoded from the i-th
input — and a raw log whose first topic is unknown appears in the output as
the unresolved entry carrying its raw fields intact. -/
theorem c8_search_log_order (results : List RawLog) (table : List (List Nat × EventDef))
    (removeHex : Bool) :
    (decodeSearchLog results table removeHex).length = results.length ∧
    (∀ i : Nat, (decodeSearchLog results table removeHex)[i]? =
      (results[i]?).map (decodeEntry table removeHex)) ∧
    (∀ log t0 rest, log ∈ results → log.topics = t0 :: rest →
      lookupEvent table t0 = none →
      decodeEntry table removeHex log = .unresolved log) := by
  refine ⟨by simp [decodeSearchLog], ?_, ?_⟩
  · intro i
    simp [decodeSearchLog]
  · intro log t0 rest hmem htop hlook
    unfold decodeEntry decodeEntryCore
    have hres : decodeLog table log = .ok (.unresolved log) := by
      simp only [decodeLog, htop, hlook]
    rw [hres]
    cases removeHex <;> simp [stripEntry]

theorem c8_search_log_order_witness :
    (decodeSearchLog [RawLog.mk [] [[5]] []] [] false).length = 1 ∧
    (decodeSearchLog [RawLog.mk [] [[5]] []] [] false)[0]? =
      some (decodeEntry [] false (RawLog.mk [] [[5]] [])) ∧
    decodeEntry [] false (RawLog.mk [] [[5]] []) = .unresolved (RawLog.mk [] [[5]] []) :=
  ⟨(c8_search_log_order [RawLog.mk [] [[5]] []] [] false).1,
    by simpa using (c8_search_log_order [RawLog.mk [] [[5]] []] [] false).2.1 0,
    (c8_search_log_order [RawLog.mk [] [[5]] []] [] false).2.2
      (RawLog.mk [] [[5]] []) [5] [] (by simp) rfl rfl⟩

/-- C9: `searchLogs` validates its arguments synchronously before any RPC
call, in source order and with the source's exact messages: a non-finite
`fromBlock` or `toBlock` throws; `addresses` that is neither a string nor
an array throws; with `addresses` accepted (a single string or an array
alike), `topics` that is neither a string nor an array throws; when both
are accepted the request is sent to `rawCall`, a single string having been
normalized into a one-element array and an array passed through unchanged
(the normalization accepting exactly the strings and arrays). -/
theorem c9_searchLogs_validation (fb tb a t : JSVal) :
    (jsIsFinite fb = false →
      searchLogs fb tb a t = .error ("fromBlock must be a number")) ∧
    (jsIsFinite fb = true → jsIsFinite tb = false →
      searchLogs fb tb a t = .error ("toBlock must be a number.")) ∧
    (jsIsFinite fb = true → jsIsFinite tb = true →
      jsIsString a = false → jsIsArray a = false →
      searchLogs fb tb a t = .error ("addresses must be a string or an array.")) ∧
    (∀ addrs, jsIsFinite fb = true → jsIsFinite tb = true →
      normalizeListArg a = some addrs →
      jsIsString t = false → jsIsArray t = false →
      searchLogs fb tb a t = .error ("topics must be a string or an array.")) ∧
    (∀ addrs tps, jsIsFinite fb = true → jsIsFinite tb = true →
      normalizeListArg a = some addrs → normalizeListArg t = some tps →
      searchLogs fb tb a t = .ok ⟨fb, tb, addrs, tps⟩) ∧
    (∀ s, normalizeListArg (JSVal.str s) = some [JSVal.str s]) ∧
    (∀ xs, normalizeListArg (JSVal.arr xs) = some xs) ∧
    (∀ x : JSVal, normalizeListArg x = none ↔
      (jsIsString x = false ∧ jsIsArray x = false)) := by
  have hnone : ∀ x : JSVal, normalizeListArg x = none ↔
      (jsIsString x = false ∧ jsIsArray x = false) := by
    intro x
    cases x <;> simp [jsIsString, jsIsArray, normalizeListArg]
  refine ⟨?_, ?_, ?_, ?_, ?_, fun s => rfl, fun xs => rfl, hnone⟩
  · intro h1
    simp [searchLogs, h1]
  · intro h1 h2
    simp [searchLogs, h1, h2]
  · intro h1 h2 h3 h4
    simp [searchLogs, h1, h2, (hnone a).mpr ⟨h3, h4⟩]
  · intro addrs h1 h2 ha h3 h4
    simp [searchLogs, h1, h2, ha, (hnone t).mpr ⟨h3, h4⟩]
  · intro addrs tps h1 h2 ha ht
    simp [searchLogs, h1, h2, ha, ht]

theorem c9_searchLogs_validation_witness :
    searchLogs (JSVal.num false) (JSVal.num true) JSVal.obj JSVal.obj =
      .error ("fromBlock must be a number") ∧
    searchLogs (JSVal.num true) (JSVal.num false) JSVal.obj JSVal.obj =
      .error ("toBlock must be a number.") ∧
    searchLogs (JSVal.num true) (JSVal.num true) JSVal.obj JSVal.obj =
      .error ("addresses must be a string or an array.") ∧
    searchLogs (JSVal.num true) (JSVal.num true) (JSVal.arr [JSVal.obj]) JSVal.nullV =
      .error ("topics must be a string or an array.") ∧
    searchLogs (JSVal.num true) (JSVal.num true) (JSVal.str ("a")) (JSVal.arr []) =
      .ok ⟨JSVal.num true, JSVal.num true, [JSVal.str ("a")], []⟩ ∧
    searchLogs (JSVal.num true) (JSVal.num true) (JSVal.arr [JSVal.str ("x")])
      (JSVal.str ("b")) =
      .ok ⟨JSVal.num true, JSVal.num true, [JSVal.str ("x")], [JSVal.str ("b")]⟩ ∧
    normalizeListArg JSVal.obj = none :=
  ⟨(c9_searchLogs_validation (JSVal.num false) (JSVal.num true) JSVal.obj JSVal.obj).1 rfl,
    (c9_searchLogs_validation (JSVal.num true) (JSVal.num false) JSVal.obj JSVal.obj).2.1
      rfl rfl,
    (c9_searchLogs_validation (JSVal.num true) (JSVal.num true) JSVal.obj JSVal.obj).2.2.1
      rfl rfl rfl rfl,
    (c9_searchLogs_validation (JSVal.num true) (JSVal.num true) (JSVal.arr [JSVal.obj])
      JSVal.nullV).2.2.2.1 [JSVal.obj] rfl rfl rfl rfl rfl,
    (c9_searchLogs_validation (JSVal.num true) (JSVal.num true) (JSVal.str ("a"))
      (JSVal.arr [])).2.2.2.2.1 [JSVal.str ("a")] [] rfl rfl rfl rfl,
    (c9_searchLogs_validation (JSVal.num true) (JSVal.num true) (JSVal.arr [JSVal.str ("x")])
      (JSVal.str ("b"))).2.2.2.2.1 [JSVal.str ("x")] [JSVal.str ("b")] rfl rfl rfl rfl,
    ((c9_searchLogs_validation (JSVal.num true) (JSVal.num true) JSVal.obj
      JSVal.obj).2.2.2.2.2.2.2 JSVal.obj).mpr ⟨rfl, rfl⟩⟩

/-- C10: `isConnected` never rejects: it is true exactly when the
`getnetworkinfo` raw call resolved with a value of JS `object` type, and it
is false in every other case, including any rejection of the raw call. -/
theorem c10_isConnected {ε : Type} (res : Except ε JSVal) :
    (isConnected res = true ↔ ∃ v, res = .ok v ∧ jsTypeof v = "object") ∧
    (∀ e : ε, isConnected (Except.error e : Except ε JSVal) = false) := by
  refine ⟨?_, fun e => rfl⟩
  constructor
  · intro h
    cases res with
    | ok v =>
      refine ⟨v, rfl, ?_⟩
      simpa [isConnected] using h
    | error e =>
      simp [isConnected] at h
  · rintro ⟨v, hv, h⟩
    subst hv
    simp [isConnected, h]

theorem c10_isConnected_witness :
    isConnected (Except.ok JSVal.nullV : Except String JSVal) = true ∧
    isConnected (Except.error ("boom") : Except String JSVal) = false :=
  ⟨(c10_isConnected (Except.ok JSVal.nullV : Except String JSVal)).1.mpr
      ⟨JSVal.nullV, rfl, rfl⟩,
    (c10_isConnected (Except.error ("boom") : Except String JSVal)).2 ("boom")⟩
